import Mathlib

/-!
Verification of the recursive-backtracking maze generator
(`src/C++/mazes/maze1/maze.cpp`).

The C++ program builds a `width × height` grid of cells, each cell an `int`
bitmask over the four compass directions, carves a maze by randomized
recursive backtracking (`BackTracker::create_passage_from`), and renders the
result as ASCII (`Maze::draw`).  This file gives a shallow embedding of that
code and proves the specification claims about it.

Modelling notes:
* The C global PRNG (`srand`/`rand`) is modelled as an arbitrary stream
  `rng : Nat → Nat` together with a cursor `pos`; `rand()` reads `rng pos`
  and advances the cursor.  Theorems quantify over all streams, hence hold
  for every `rand` implementation and every seed.
* The recursion of `create_passage_from` is modelled with a fuel parameter.
  Fuel `grid.length + 1` is used at the entry point; the lemma
  `carveF_fuel_irrelevant` shows that any fuel above the number of
  not-yet-visited cells yields the same result, so the fuel-exhaustion
  branch is never taken and the model agrees with the unbounded recursion.
* `calls` and `log` are ghost instrumentation fields: `calls` counts entries
  into `create_passage_from` (for the termination/recursion-bound claim) and
  `log` records cells in the order they are first marked (for the
  acyclicity claim).  They are write-only: no control flow or grid content
  depends on them.
-/

/-- Modelled from the spec: the direction bit constants `N`, `S`, `E`, `W`
live in the missing header `maze.h`.  The spec fixes the cell state to be a
4-bit set over the symbolic directions, so they are four distinct single
bits. -/
def N : Nat := 1

/-- Modelled from the spec: South direction bit (see `N`). -/
def S : Nat := 2

/-- Modelled from the spec: East direction bit (see `N`). -/
def E : Nat := 4

/-- Modelled from the spec: West direction bit (see `N`). -/
def W : Nat := 8

/-- The direction array `{ N, S, E, W }` built at the top of
`create_passage_from`. -/
def dirList : List Nat := [N, S, E, W]

/-- Modelled from the spec: the `Maze::DX` table of `maze.h`; the spec gives
the direction vectors North=(0,-1), South=(0,1), East=(1,0), West=(-1,0). -/
def DX (d : Nat) : Int := if d = E then 1 else if d = W then -1 else 0

/-- Modelled from the spec: the `Maze::DY` table of `maze.h` (see `DX`). -/
def DY (d : Nat) : Int := if d = N then -1 else if d = S then 1 else 0

/-- Modelled from the spec: the `Maze::OPPOSITE` table of `maze.h`; the spec
gives the opposite-direction mapping North↔South, East↔West. -/
def OPPOSITE (d : Nat) : Nat :=
  if d = N then S else if d = S then N else if d = E then W else if d = W then E else 0

/-- State of the program: the fields `_width`, `_height`, `_seed`, `_grid` of
class `Maze`, the global PRNG (`rng` stream plus cursor `pos`), and two ghost
fields (`calls`, `log`, see the file header). -/
structure Maze where
  width : Int
  height : Int
  seed : Int
  grid : List Nat
  rng : Nat → Nat
  pos : Nat
  calls : Nat
  log : List (Int × Int)

/-- `Maze::index`: flattened index `y * _width + x`, with no bounds check
(maze.cpp lines 102-106). -/
def Maze.index (m : Maze) (x y : Int) : Int :=
  y * m.width + x

/-- Read `_grid[index(x, y)]`. -/
def cellAt (m : Maze) (x y : Int) : Nat :=
  m.grid.getD (m.index x y).toNat 0

/-- The `Maze::Maze(w, h, s)` constructor (maze.cpp lines 18-29): store the
fields, seed the PRNG, allocate `w * h` cells and zero them.  There is no
dimension check; for non-positive `w * h` the zeroing loop writes no cells. -/
def mkMaze (w h s : Int) (rng : Nat → Nat) : Maze :=
  { width := w, height := h, seed := s,
    grid := List.replicate (w * h).toNat 0,
    rng := rng, pos := 0, calls := 0, log := [] }

/-- One call of `rand()`: read the stream at the cursor, advance the cursor. -/
def randM (m : Maze) : Nat × Maze :=
  (m.rng m.pos, { m with pos := m.pos + 1 })

/-- The in-place swap of `directions[i]` and `directions[r]`
(maze.cpp lines 140-142). -/
def listSwap (l : List Nat) (i r : Nat) : List Nat :=
  (l.set i (l.getD r 0)).set r (l.getD i 0)

/-- One iteration of the shuffle loop (maze.cpp lines 138-143):
`r = i + rand() % (4 - i)`, then swap positions `i` and `r`. -/
def shuffleStep (i : Nat) (p : Maze × List Nat) : Maze × List Nat :=
  ((randM p.1).2, listSwap p.2 i (i + (randM p.1).1 % (4 - i)))

/-- The full shuffle of `create_passage_from` (maze.cpp lines 137-143): the
loop runs for `i = 0, 1, 2, 3`, consuming one `rand()` draw per iteration
(four in total; the `i = 3` iteration draws but always swaps index 3 with
itself). -/
def shuffleDirs (m : Maze) : Maze × List Nat :=
  shuffleStep 3 (shuffleStep 2 (shuffleStep 1 (shuffleStep 0 (m, dirList))))

/-- Write `_grid[index(x, y)] |= d` and record the cell in the ghost visit
log if this is the moment it first becomes nonzero. -/
def markCell (m : Maze) (x y : Int) (d : Nat) : Maze :=
  { m with
    grid := m.grid.set (m.index x y).toNat (cellAt m x y ||| d),
    log := if cellAt m x y = 0 then m.log ++ [(x, y)] else m.log }

/-- The body of one direction attempt inside `create_passage_from`
(maze.cpp lines 147-158): compute the neighbor `(dx, dy)`, test
`dy >= 0 && dy <= height-1 && dx >= 0 && dx <= width-1 && grid[dx,dy] == 0`,
and on success open the passage on both sides and recurse.  `recur` is the
recursive call (instantiated with `carveF fuel`). -/
def tryDir (recur : Maze → Int → Int → Maze) (x y : Int) (d : Nat) (m : Maze) : Maze :=
  if 0 ≤ y + DY d ∧ y + DY d ≤ m.height - 1 ∧ 0 ≤ x + DX d ∧ x + DX d ≤ m.width - 1 ∧
      cellAt m (x + DX d) (y + DY d) = 0 then
    recur (markCell (markCell m x y d) (x + DX d) (y + DY d) (OPPOSITE d)) (x + DX d) (y + DY d)
  else m

/-- Fuelled model of `BackTracker::create_passage_from` (maze.cpp lines
133-159): bump the ghost entry counter, shuffle the direction list, then try
the four shuffled directions in order.  The fuel-exhaustion branch is dead
for sufficient fuel (`carveF_fuel_irrelevant`). -/
def carveF : Nat → Maze → Int → Int → Maze
  | 0, m, _, _ => m
  | fuel + 1, m, x, y =>
    let p := shuffleDirs { m with calls := m.calls + 1 }
    tryDir (carveF fuel) x y (p.2.getD 3 0)
      (tryDir (carveF fuel) x y (p.2.getD 2 0)
        (tryDir (carveF fuel) x y (p.2.getD 1 0)
          (tryDir (carveF fuel) x y (p.2.getD 0 0) p.1)))

/-- `BackTracker::create_passage_from(x, y)` with fuel that provably never
runs out (the number of cells plus one). -/
def create_passage_from (m : Maze) (x y : Int) : Maze :=
  carveF (m.grid.length + 1) m x y

/-- The `BackTracker::BackTracker(w, h, s)` constructor (maze.cpp lines
115-118): build the `Maze`, then run `create_passage_from(0, 0)`. -/
def backTracker (w h s : Int) (rng : Nat → Nat) : Maze :=
  create_passage_from (mkMaze w h s rng) 0 0

/-- Test `(val & d) != 0`: cell value `v` has the passage bit `d` open. -/
def hasDir (v d : Nat) : Prop := v &&& d ≠ 0

instance (v d : Nat) : Decidable (hasDir v d) := by
  unfold hasDir; infer_instance

/-- The in-bounds predicate of the carving guard, `0 ≤ y < height` and
`0 ≤ x < width`. -/
def inB (m : Maze) (x y : Int) : Prop :=
  0 ≤ y ∧ y ≤ m.height - 1 ∧ 0 ≤ x ∧ x ≤ m.width - 1

instance (m : Maze) (x y : Int) : Decidable (inB m x y) := by
  unfold inB; infer_instance


/-- The top border of `Maze::draw` (maze.cpp lines 46-49): one space then
`2 * width - 1` underscores. -/
def topLine (m : Maze) : String :=
  String.mk (' ' :: List.replicate (2 * m.width - 1).toNat '_')

/-- The first character a cell contributes to its row (maze.cpp lines
57-60): a space if its South passage is open, else an underscore. -/
def southChar (m : Maze) (i j : Int) : Char :=
  if cellAt m i j &&& S ≠ 0 then ' ' else '_'

/-- The second character a cell contributes to its row (maze.cpp lines
62-68): with an open East passage, a space if the cell or its East neighbor
(the literal array read `_grid[index(i+1, j)]`) has an open South passage
and an underscore otherwise; with no East passage, a wall character. -/
def eastChar (m : Maze) (i j : Int) : Char :=
  if cellAt m i j &&& E ≠ 0 then
    (if (cellAt m i j ||| cellAt m (i + 1) j) &&& S ≠ 0 then ' ' else '_')
  else '|'

/-- The characters of row `j` of the diagram (maze.cpp lines 54-69): a
leading wall, then two characters per cell, left to right. -/
def rowChars (m : Maze) (j : Int) : List Char :=
  '|' :: (List.range m.width.toNat).flatMap
    (fun i => [southChar m (Int.ofNat i) j, eastChar m (Int.ofNat i) j])

/-- Row `j` of the diagram as a string. -/
def rowLine (m : Maze) (j : Int) : String :=
  String.mk (rowChars m j)

/-- The metadata line of `Maze::draw` (maze.cpp line 74); note the leading
space emitted by `cout << " width: "`. -/
def metaLine (m : Maze) : String :=
  " width: " ++ toString m.width ++ ", height: " ++ toString m.height ++
    ", seed: " ++ toString m.seed

/-- `Maze::draw` (maze.cpp lines 42-75) as the list of printed lines: top
border, one line per row, metadata line. -/
def draw (m : Maze) : List String :=
  topLine m :: ((List.range m.height.toNat).map (fun j => rowLine m (Int.ofNat j)) ++ [metaLine m])

/-! ### Direction-table and bit-level facts -/

lemma mem_dirList_iff {d : Nat} : d ∈ dirList ↔ d = N ∨ d = S ∨ d = E ∨ d = W := by
  simp [dirList]

lemma opp_mem {d : Nat} (hd : d ∈ dirList) : OPPOSITE d ∈ dirList := by
  rcases mem_dirList_iff.1 hd with rfl | rfl | rfl | rfl <;> decide

lemma opp_opp {d : Nat} (hd : d ∈ dirList) : OPPOSITE (OPPOSITE d) = d := by
  rcases mem_dirList_iff.1 hd with rfl | rfl | rfl | rfl <;> decide

lemma dx_opp {d : Nat} (hd : d ∈ dirList) : DX (OPPOSITE d) = -DX d := by
  rcases mem_dirList_iff.1 hd with rfl | rfl | rfl | rfl <;> decide

lemma dy_opp {d : Nat} (hd : d ∈ dirList) : DY (OPPOSITE d) = -DY d := by
  rcases mem_dirList_iff.1 hd with rfl | rfl | rfl | rfl <;> decide

lemma vec_ne_zero {d : Nat} (hd : d ∈ dirList) : ¬(DX d = 0 ∧ DY d = 0) := by
  rcases mem_dirList_iff.1 hd with rfl | rfl | rfl | rfl <;> decide

lemma dir_ne_zero {d : Nat} (hd : d ∈ dirList) : d ≠ 0 := by
  rcases mem_dirList_iff.1 hd with rfl | rfl | rfl | rfl <;> decide

lemma vec_inj {d₁ d₂ : Nat} (h₁ : d₁ ∈ dirList) (h₂ : d₂ ∈ dirList)
    (hx : DX d₁ = DX d₂) (hy : DY d₁ = DY d₂) : d₁ = d₂ := by
  rcases mem_dirList_iff.1 h₁ with rfl | rfl | rfl | rfl <;>
    rcases mem_dirList_iff.1 h₂ with rfl | rfl | rfl | rfl <;>
      first | rfl | (exfalso; revert hx hy; decide)

lemma nat_and_or_right (a b c : Nat) : (a ||| b) &&& c = (a &&& c) ||| (b &&& c) := by
  apply Nat.eq_of_testBit_eq
  intro i
  cases h1 : a.testBit i <;> cases h2 : b.testBit i <;> cases h3 : c.testBit i <;>
    simp [Nat.testBit_or, Nat.testBit_and, h1, h2, h3]

lemma nat_or_eq_zero_iff {a b : Nat} : a ||| b = 0 ↔ a = 0 ∧ b = 0 := by
  constructor
  · intro h
    have key : ∀ i, a.testBit i = false ∧ b.testBit i = false := by
      intro i
      have hb := congrArg (fun n => n.testBit i) h
      simp only [Nat.testBit_or, Nat.zero_testBit] at hb
      exact Bool.or_eq_false_iff.1 hb
    constructor <;> apply Nat.eq_of_testBit_eq <;> intro i <;>
      simp [Nat.zero_testBit, (key i).1, (key i).2]
  · rintro ⟨rfl, rfl⟩
    rfl

lemma hasDir_or {v b e : Nat} : hasDir (v ||| b) e ↔ hasDir v e ∨ hasDir b e := by
  simp only [hasDir, nat_and_or_right, ne_eq, nat_or_eq_zero_iff]
  tauto

lemma hasDir_single {b e : Nat} (hb : b ∈ dirList) (he : e ∈ dirList) :
    hasDir b e ↔ b = e := by
  rcases mem_dirList_iff.1 hb with rfl | rfl | rfl | rfl <;>
    rcases mem_dirList_iff.1 he with rfl | rfl | rfl | rfl <;> decide

lemma not_hasDir_zero (d : Nat) : ¬ hasDir 0 d := by
  simp [hasDir, Nat.zero_and]

lemma ne_zero_of_hasDir {v d : Nat} (h : hasDir v d) : v ≠ 0 := by
  rintro rfl
  exact not_hasDir_zero d h

lemma or_dir_ne_zero {v d : Nat} (hd : d ∈ dirList) : v ||| d ≠ 0 := by
  intro h
  exact dir_ne_zero hd (nat_or_eq_zero_iff.1 h).2

/-! ### Shuffle facts -/

lemma listSwap_length (l : List Nat) (i r : Nat) : (listSwap l i r).length = l.length := by
  simp [listSwap]

lemma mem_of_mem_listSwap {a : Nat} {l : List Nat} {i r : Nat}
    (hi : i < l.length) (hr : r < l.length) (h : a ∈ listSwap l i r) : a ∈ l := by
  unfold listSwap at h
  rcases List.mem_or_eq_of_mem_set h with h' | rfl
  · rcases List.mem_or_eq_of_mem_set h' with h'' | rfl
    · exact h''
    · rw [List.getD_eq_getElem _ _ hr]
      exact List.getElem_mem _
  · rw [List.getD_eq_getElem _ _ hi]
    exact List.getElem_mem _

lemma shuffleStep_snd_length {i : Nat} (p : Maze × List Nat) :
    (shuffleStep i p).2.length = p.2.length := by
  simp [shuffleStep, listSwap_length]

lemma shuffleStep_snd_mem {i : Nat} (hi : i < 4) {p : Maze × List Nat}
    (hlen : p.2.length = 4) {a : Nat} (h : a ∈ (shuffleStep i p).2) : a ∈ p.2 := by
  have h4 : 0 < 4 - i := by omega
  have hm := Nat.mod_lt ((randM p.1).1) h4
  apply mem_of_mem_listSwap (l := p.2) (i := i) (r := i + (randM p.1).1 % (4 - i))
  · omega
  · omega
  · exact h

lemma shuffleDirs_snd_length (m : Maze) : (shuffleDirs m).2.length = 4 := by
  unfold shuffleDirs
  rw [shuffleStep_snd_length, shuffleStep_snd_length, shuffleStep_snd_length,
    shuffleStep_snd_length]
  rfl

lemma shuffleDirs_snd_mem {m : Maze} {a : Nat} (h : a ∈ (shuffleDirs m).2) : a ∈ dirList := by
  unfold shuffleDirs at h
  have l0 : (dirList : List Nat).length = 4 := rfl
  have l1 := shuffleStep_snd_length (i := 0) (m, dirList)
  have l2 := shuffleStep_snd_length (i := 1) (shuffleStep 0 (m, dirList))
  have l3 := shuffleStep_snd_length (i := 2) (shuffleStep 1 (shuffleStep 0 (m, dirList)))
  have h3 := shuffleStep_snd_mem (by omega : (3:Nat) < 4) (by simp_all) h
  have h2 := shuffleStep_snd_mem (by omega : (2:Nat) < 4) (by simp_all) h3
  have h1 := shuffleStep_snd_mem (by omega : (1:Nat) < 4) (by simp_all) h2
  exact shuffleStep_snd_mem (by omega : (0:Nat) < 4) (by simp_all) h1

lemma shuffleDirs_getD_mem (m : Maze) {k : Nat} (hk : k < 4) :
    (shuffleDirs m).2.getD k 0 ∈ dirList := by
  have hlen : (shuffleDirs m).2.length = 4 := shuffleDirs_snd_length m
  rw [List.getD_eq_getElem _ _ (by omega)]
  exact shuffleDirs_snd_mem (List.getElem_mem _)

lemma shuffleDirs_fst (m : Maze) : (shuffleDirs m).1 = { m with pos := m.pos + 4 } := by
  cases m
  simp [shuffleDirs, shuffleStep, randM]

/-! ### State preservation through the carver -/

lemma getD_set_eq_ite (l : List Nat) (i k a : Nat) :
    (l.set i a).getD k 0 = if i = k ∧ k < l.length then a else l.getD k 0 := by
  by_cases hk : k < l.length
  · rw [List.getD_eq_getElem _ _ (by simpa using hk), List.getElem_set]
    by_cases hik : i = k
    · rw [if_pos hik, if_pos ⟨hik, hk⟩]
    · rw [if_neg hik, if_neg (fun hclash => hik hclash.1), List.getD_eq_getElem _ _ hk]
  · rw [List.getD_eq_default _ _ (by simpa using Nat.le_of_not_lt hk),
      List.getD_eq_default _ _ (Nat.le_of_not_lt hk)]
    simp [hk]

lemma markCell_width (m : Maze) (x y : Int) (d : Nat) : (markCell m x y d).width = m.width := rfl

lemma markCell_height (m : Maze) (x y : Int) (d : Nat) : (markCell m x y d).height = m.height := rfl

lemma markCell_grid_getD (m : Maze) (x y : Int) (d : Nat) (k : Nat) :
    (markCell m x y d).grid.getD k 0 =
      if (m.index x y).toNat = k ∧ k < m.grid.length then cellAt m x y ||| d
      else m.grid.getD k 0 := by
  show (m.grid.set (m.index x y).toNat (cellAt m x y ||| d)).getD k 0 = _
  rw [getD_set_eq_ite]

lemma markCell_grid_length (m : Maze) (x y : Int) (d : Nat) :
    (markCell m x y d).grid.length = m.grid.length := by
  simp [markCell]

/-- Relation between a state and any later state of the same carving run:
the geometry fields are unchanged, the visit log only grows at its end, and
grid cells only gain passage bits (in particular nonzero cells stay
nonzero). -/
def Pres (m m' : Maze) : Prop :=
  m'.width = m.width ∧ m'.height = m.height ∧ m'.seed = m.seed ∧
  m'.grid.length = m.grid.length ∧ (∃ t, m'.log = m.log ++ t) ∧
  (∀ k d, hasDir (m.grid.getD k 0) d → hasDir (m'.grid.getD k 0) d) ∧
  (∀ k, m.grid.getD k 0 ≠ 0 → m'.grid.getD k 0 ≠ 0)

lemma pres_refl (m : Maze) : Pres m m :=
  ⟨rfl, rfl, rfl, rfl, ⟨[], by simp⟩, fun _ _ h => h, fun _ h => h⟩

lemma pres_trans {a b c : Maze} (h₁ : Pres a b) (h₂ : Pres b c) : Pres a c := by
  obtain ⟨w₁, h₁', s₁, l₁, ⟨t₁, ht₁⟩, d₁, n₁⟩ := h₁
  obtain ⟨w₂, h₂', s₂, l₂, ⟨t₂, ht₂⟩, d₂, n₂⟩ := h₂
  refine ⟨w₂.trans w₁, h₂'.trans h₁', s₂.trans s₁, l₂.trans l₁, ⟨t₁ ++ t₂, ?_⟩,
    fun k d h => d₂ k d (d₁ k d h), fun k h => n₂ k (n₁ k h)⟩
  rw [ht₂, ht₁, List.append_assoc]

lemma pres_markCell (m : Maze) (x y : Int) (d : Nat) : Pres m (markCell m x y d) := by
  refine ⟨rfl, rfl, rfl, markCell_grid_length m x y d, ?_, ?_, ?_⟩
  · unfold markCell
    by_cases h0 : cellAt m x y = 0
    · exact ⟨[(x, y)], by simp [h0]⟩
    · exact ⟨[], by simp [h0]⟩
  · intro k e he
    rw [markCell_grid_getD]
    by_cases hc : (m.index x y).toNat = k ∧ k < m.grid.length
    · rw [if_pos hc]
      have : cellAt m x y = m.grid.getD k 0 := by rw [cellAt, hc.1]
      exact hasDir_or.2 (Or.inl (this ▸ he))
    · rwa [if_neg hc]
  · intro k hk
    rw [markCell_grid_getD]
    by_cases hc : (m.index x y).toNat = k ∧ k < m.grid.length
    · rw [if_pos hc]
      intro hor
      have : cellAt m x y = m.grid.getD k 0 := by rw [cellAt, hc.1]
      exact hk (this ▸ (nat_or_eq_zero_iff.1 hor).1)
    · rwa [if_neg hc]

lemma pres_tryDir {recur : Maze → Int → Int → Maze}
    (hrec : ∀ m x y, Pres m (recur m x y)) (x y : Int) (d : Nat) (m : Maze) :
    Pres m (tryDir recur x y d m) := by
  unfold tryDir
  by_cases hc : 0 ≤ y + DY d ∧ y + DY d ≤ m.height - 1 ∧ 0 ≤ x + DX d ∧
      x + DX d ≤ m.width - 1 ∧ cellAt m (x + DX d) (y + DY d) = 0
  · rw [if_pos hc]
    exact pres_trans (pres_trans (pres_markCell m x y d)
      (pres_markCell _ (x + DX d) (y + DY d) (OPPOSITE d))) (hrec _ _ _)
  · rw [if_neg hc]
    exact pres_refl m

lemma carveF_succ (fuel : Nat) (m : Maze) (x y : Int) :
    carveF (fuel + 1) m x y =
      tryDir (carveF fuel) x y ((shuffleDirs { m with calls := m.calls + 1 }).2.getD 3 0)
        (tryDir (carveF fuel) x y ((shuffleDirs { m with calls := m.calls + 1 }).2.getD 2 0)
          (tryDir (carveF fuel) x y ((shuffleDirs { m with calls := m.calls + 1 }).2.getD 1 0)
            (tryDir (carveF fuel) x y ((shuffleDirs { m with calls := m.calls + 1 }).2.getD 0 0)
              (shuffleDirs { m with calls := m.calls + 1 }).1))) := rfl

lemma pres_shuffle_fst (m : Maze) : Pres m (shuffleDirs { m with calls := m.calls + 1 }).1 := by
  rw [shuffleDirs_fst]
  exact ⟨rfl, rfl, rfl, rfl, ⟨[], by simp⟩, fun _ _ h => h, fun _ h => h⟩

lemma pres_carveF (fuel : Nat) (m : Maze) (x y : Int) : Pres m (carveF fuel m x y) := by
  induction fuel generalizing m x y with
  | zero => exact pres_refl m
  | succ fuel ih =>
    rw [carveF_succ]
    exact pres_trans (pres_shuffle_fst m)
      (pres_trans (pres_tryDir ih x y _ _)
        (pres_trans (pres_tryDir ih x y _ _)
          (pres_trans (pres_tryDir ih x y _ _) (pres_tryDir ih x y _ _))))

lemma pres_cellAt_hasDir {m m' : Maze} (h : Pres m m') {a b : Int} {e : Nat}
    (he : hasDir (cellAt m a b) e) : hasDir (cellAt m' a b) e := by
  have hw : m'.width = m.width := h.1
  have := h.2.2.2.2.2.1 (m.index a b).toNat e he
  rwa [cellAt, Maze.index, hw, ← Maze.index]

lemma pres_cellAt_ne {m m' : Maze} (h : Pres m m') {a b : Int}
    (hne : cellAt m a b ≠ 0) : cellAt m' a b ≠ 0 := by
  have hw : m'.width = m.width := h.1
  have := h.2.2.2.2.2.2 (m.index a b).toNat hne
  rwa [cellAt, Maze.index, hw, ← Maze.index]

lemma pres_inB {m m' : Maze} (h : Pres m m') (a b : Int) : inB m' a b ↔ inB m a b := by
  rw [inB, inB, h.1, h.2.1]

/-! ### Well-formedness and the core grid invariants -/

/-- Well-formed state: positive dimensions and a grid of exactly
`width * height` cells. -/
def Wf (m : Maze) : Prop :=
  1 ≤ m.width ∧ 1 ≤ m.height ∧ m.grid.length = (m.width * m.height).toNat

/-- Symmetry invariant: an open bit always points to an in-bounds neighbor
carrying the opposite bit. -/
def SymInv (m : Maze) : Prop :=
  ∀ x y, inB m x y → ∀ d ∈ dirList, hasDir (cellAt m x y) d →
    inB m (x + DX d) (y + DY d) ∧ hasDir (cellAt m (x + DX d) (y + DY d)) (OPPOSITE d)

/-- Ghost-log invariant: the log lists exactly the visited (nonzero)
in-bounds cells, without repetition. -/
def LogInv (m : Maze) : Prop :=
  m.log.Nodup ∧
  (∀ x y, inB m x y → (cellAt m x y ≠ 0 ↔ ((x, y) : Int × Int) ∈ m.log)) ∧
  (∀ c ∈ m.log, inB m c.1 c.2)

/-- Position of the first occurrence of an element in a list (the length of
the list when absent); used to order cells by ghost-log visit time. -/
def posIn {α : Type} [DecidableEq α] (c : α) : List α → Nat
  | [] => 0
  | a :: l => if a = c then 0 else posIn c l + 1

/-- Order invariant: every cell has at most one open passage toward a cell
visited earlier than itself (its carving parent). -/
def UpInv (m : Maze) : Prop :=
  ∀ x y, inB m x y → ∀ d₁ ∈ dirList, ∀ d₂ ∈ dirList,
    hasDir (cellAt m x y) d₁ → hasDir (cellAt m x y) d₂ →
    posIn ((x + DX d₁, y + DY d₁) : Int × Int) m.log < posIn ((x, y) : Int × Int) m.log →
    posIn ((x + DX d₂, y + DY d₂) : Int × Int) m.log < posIn ((x, y) : Int × Int) m.log →
    d₁ = d₂

/-- The conjunction of all run invariants. -/
def RunInv (m : Maze) : Prop := Wf m ∧ SymInv m ∧ LogInv m ∧ UpInv m

lemma nbr_ne {x y : Int} {d : Nat} (hd : d ∈ dirList) : ¬(x + DX d = x ∧ y + DY d = y) := by
  rintro ⟨h1, h2⟩
  exact vec_ne_zero hd ⟨by omega, by omega⟩

lemma index_nonneg {m : Maze} {x y : Int} (h : inB m x y) : 0 ≤ m.index x y := by
  obtain ⟨hy0, hy1, hx0, hx1⟩ := h
  have hw : 0 ≤ m.width := by omega
  have hyw : 0 ≤ y * m.width := mul_nonneg hy0 hw
  unfold Maze.index
  omega

lemma index_lt {m : Maze} (_hwf : Wf m) {x y : Int} (h : inB m x y) :
    m.index x y < m.width * m.height := by
  obtain ⟨hy0, hy1, hx0, hx1⟩ := h
  have h1 : y * m.width ≤ (m.height - 1) * m.width :=
    mul_le_mul_of_nonneg_right hy1 (by omega)
  have h2 : (m.height - 1) * m.width = m.height * m.width - m.width := by ring
  unfold Maze.index
  have h3 : m.height * m.width = m.width * m.height := by ring
  omega

lemma index_toNat_lt {m : Maze} (hwf : Wf m) {x y : Int} (h : inB m x y) :
    (m.index x y).toNat < m.grid.length := by
  have h1 := index_nonneg h
  have h2 := index_lt hwf h
  have h3 := hwf.2.2
  omega

lemma index_inj {m : Maze} (hwf : Wf m) {x y x' y' : Int} (h : inB m x y) (h' : inB m x' y')
    (heq : m.index x y = m.index x' y') : x = x' ∧ y = y' := by
  obtain ⟨hy0, hy1, hx0, hx1⟩ := h
  obtain ⟨hy0', hy1', hx0', hx1'⟩ := h'
  unfold Maze.index at heq
  have hw : 1 ≤ m.width := hwf.1
  have hdiv : ∀ a b : Int, 0 ≤ a → a ≤ m.width - 1 → (a + b * m.width) / m.width = b := by
    intro a b ha hab
    rw [Int.add_mul_ediv_right _ _ (by omega : m.width ≠ 0),
      Int.ediv_eq_zero_of_lt ha (by omega), zero_add]
  have hyy : y = y' := by
    have e1 := hdiv x y hx0 hx1
    have e2 := hdiv x' y' hx0' hx1'
    have hxy : x + y * m.width = x' + y' * m.width := by linarith
    rw [hxy, e2] at e1
    exact e1.symm
  subst hyy
  refine ⟨by linarith, rfl⟩

lemma cellAt_eq_getD (m : Maze) (x y : Int) :
    cellAt m x y = m.grid.getD (m.index x y).toNat 0 := rfl

lemma cellAt_markCell {m : Maze} (hwf : Wf m) {x y : Int} (hin : inB m x y)
    (d : Nat) {a b : Int} (hab : inB m a b) :
    cellAt (markCell m x y d) a b =
      if a = x ∧ b = y then cellAt m x y ||| d else cellAt m a b := by
  have hlen := index_toNat_lt hwf hab
  have hcell : cellAt (markCell m x y d) a b =
      (markCell m x y d).grid.getD ((markCell m x y d).index a b).toNat 0 := rfl
  have hidx : (markCell m x y d).index a b = m.index a b := rfl
  rw [hcell, hidx, markCell_grid_getD]
  by_cases hc : a = x ∧ b = y
  · obtain ⟨rfl, rfl⟩ := hc
    rw [if_pos ⟨rfl, hlen⟩, if_pos ⟨rfl, rfl⟩]
  · have hne : ¬((m.index x y).toNat = (m.index a b).toNat ∧
        (m.index a b).toNat < m.grid.length) := by
      rintro ⟨hk, _⟩
      have h1 := index_nonneg hin
      have h2 := index_nonneg hab
      have hidx2 : m.index x y = m.index a b := by omega
      obtain ⟨hx', hy'⟩ := index_inj hwf hin hab hidx2
      exact hc ⟨hx'.symm, hy'.symm⟩
    rw [if_neg hne, if_neg hc]
    rfl

lemma markCell_log_of_zero {m : Maze} {x y : Int} (h : cellAt m x y = 0) (d : Nat) :
    (markCell m x y d).log = m.log ++ [((x, y) : Int × Int)] := by
  simp [markCell, h]

lemma markCell_log_of_ne {m : Maze} {x y : Int} (h : cellAt m x y ≠ 0) (d : Nat) :
    (markCell m x y d).log = m.log := by
  simp [markCell, h]

/-! ### The double write of one successful carve -/

/-- The two grid writes of a successful carve: open bit `d` on `(x, y)` and
the opposite bit on the neighbor in direction `d`. -/
def carveMark (m : Maze) (x y : Int) (d : Nat) : Maze :=
  markCell (markCell m x y d) (x + DX d) (y + DY d) (OPPOSITE d)

lemma tryDir_eq (recur : Maze → Int → Int → Maze) (x y : Int) (d : Nat) (m : Maze) :
    tryDir recur x y d m =
      if 0 ≤ y + DY d ∧ y + DY d ≤ m.height - 1 ∧ 0 ≤ x + DX d ∧ x + DX d ≤ m.width - 1 ∧
          cellAt m (x + DX d) (y + DY d) = 0 then
        recur (carveMark m x y d) (x + DX d) (y + DY d)
      else m := rfl

lemma inB_markCell (m : Maze) (x y : Int) (d : Nat) (a b : Int) :
    inB (markCell m x y d) a b ↔ inB m a b := Iff.rfl

lemma wf_of_pres {m m' : Maze} (hwf : Wf m) (h : Pres m m') : Wf m' := by
  refine ⟨?_, ?_, ?_⟩
  · rw [h.1]; exact hwf.1
  · rw [h.2.1]; exact hwf.2.1
  · rw [h.2.2.2.1, h.1, h.2.1]; exact hwf.2.2

lemma pres_carveMark (m : Maze) (x y : Int) (d : Nat) : Pres m (carveMark m x y d) :=
  pres_trans (pres_markCell m x y d) (pres_markCell _ (x + DX d) (y + DY d) (OPPOSITE d))

lemma cellAt_markCell_of_ne {m : Maze} (hwf : Wf m) {x y : Int} (hin : inB m x y)
    (d : Nat) {a b : Int} (hab : inB m a b) (hne : ¬(a = x ∧ b = y)) :
    cellAt (markCell m x y d) a b = cellAt m a b := by
  rw [cellAt_markCell hwf hin d hab, if_neg hne]

lemma cellAt_carveMark {m : Maze} (hwf : Wf m) {x y : Int} (hin : inB m x y)
    {d : Nat} (hd : d ∈ dirList) (hnb : inB m (x + DX d) (y + DY d))
    (h0 : cellAt m (x + DX d) (y + DY d) = 0) {a b : Int} (hab : inB m a b) :
    cellAt (carveMark m x y d) a b =
      if a = x + DX d ∧ b = y + DY d then OPPOSITE d
      else if a = x ∧ b = y then cellAt m x y ||| d else cellAt m a b := by
  have hwf1 : Wf (markCell m x y d) := wf_of_pres hwf (pres_markCell m x y d)
  have hnb1 : inB (markCell m x y d) (x + DX d) (y + DY d) := hnb
  have hab1 : inB (markCell m x y d) a b := hab
  unfold carveMark
  rw [cellAt_markCell hwf1 hnb1 (OPPOSITE d) hab1]
  by_cases c1 : a = x + DX d ∧ b = y + DY d
  · rw [if_pos c1, if_pos c1]
    obtain ⟨rfl, rfl⟩ := c1
    rw [cellAt_markCell_of_ne hwf hin d hnb (nbr_ne hd), h0, Nat.zero_or]
  · rw [if_neg c1, if_neg c1, cellAt_markCell hwf hin d hab]

lemma log_carveMark {m : Maze} (hwf : Wf m) {x y : Int} (hin : inB m x y)
    {d : Nat} (hd : d ∈ dirList) (hnb : inB m (x + DX d) (y + DY d))
    (h0 : cellAt m (x + DX d) (y + DY d) = 0) :
    (carveMark m x y d).log = (markCell m x y d).log ++ [((x + DX d, y + DY d) : Int × Int)] := by
  unfold carveMark
  rw [markCell_log_of_zero]
  rw [cellAt_markCell_of_ne hwf hin d hnb (nbr_ne hd)]
  exact h0

lemma nodup_append_singleton {α : Type} [DecidableEq α] {l : List α} {z : α}
    (hl : l.Nodup) (hz : z ∉ l) : (l ++ [z]).Nodup := by
  rw [List.nodup_append]
  exact ⟨hl, List.nodup_singleton z, by simpa [List.disjoint_singleton] using hz⟩

lemma posIn_append_of_mem {α : Type} [DecidableEq α] {c : α} {l : List α} (t : List α)
    (hc : c ∈ l) : posIn c (l ++ t) = posIn c l := by
  induction l with
  | nil => cases hc
  | cons a l ih =>
    by_cases ha : a = c
    · simp [posIn, ha]
    · have hc' : c ∈ l := by
        rcases List.mem_cons.1 hc with rfl | hc'
        · exact absurd rfl ha
        · exact hc'
      simp [posIn, ha, ih hc']

lemma posIn_append_of_not_mem {α : Type} [DecidableEq α] {c : α} {l : List α} (t : List α)
    (hc : c ∉ l) : posIn c (l ++ t) = l.length + posIn c t := by
  induction l with
  | nil => simp
  | cons a l ih =>
    have ha : a ≠ c := fun h => hc (h ▸ List.mem_cons_self a l)
    have hc' : c ∉ l := fun h => hc (List.mem_cons_of_mem a h)
    simp [posIn, ha, ih hc', List.length_cons]
    omega

lemma posIn_append_self {α : Type} [DecidableEq α] {z : α} {l : List α} (hz : z ∉ l) :
    posIn z (l ++ [z]) = l.length := by
  rw [posIn_append_of_not_mem _ hz]
  simp [posIn]

lemma posIn_lt_length {α : Type} [DecidableEq α] {c : α} {l : List α} (hc : c ∈ l) :
    posIn c l < l.length := by
  induction l with
  | nil => cases hc
  | cons a l ih =>
    by_cases ha : a = c
    · simp [posIn, ha]
    · have hc' : c ∈ l := by
        rcases List.mem_cons.1 hc with rfl | hc'
        · exact absurd rfl ha
        · exact hc'
      simp [posIn, ha]
      exact ih hc'

lemma posIn_inj {α : Type} [DecidableEq α] {l : List α} (hnd : l.Nodup) {a b : α}
    (ha : a ∈ l) (hb : b ∈ l) (h : posIn a l = posIn b l) : a = b := by
  induction l with
  | nil => cases ha
  | cons x l ih =>
    have hx : x ∉ l := (List.nodup_cons.1 hnd).1
    by_cases hxa : x = a <;> by_cases hxb : x = b
    · rw [← hxa, ← hxb]
    · exfalso
      simp only [posIn, if_pos hxa, if_neg hxb] at h
      omega
    · exfalso
      simp only [posIn, if_pos hxb, if_neg hxa] at h
      omega
    · have ha' : a ∈ l := by
        rcases List.mem_cons.1 ha with rfl | ha'
        · exact absurd rfl hxa
        · exact ha'
      have hb' : b ∈ l := by
        rcases List.mem_cons.1 hb with rfl | hb'
        · exact absurd rfl hxb
        · exact hb'
      simp [posIn, hxa, hxb] at h
      exact ih (List.nodup_cons.1 hnd).2 ha' hb' h

/-! ### Invariant preservation across one successful carve -/

lemma markCell_log_facts {m : Maze} (hlog : LogInv m) {x y : Int} (hin : inB m x y) (d : Nat) :
    (markCell m x y d).log.Nodup ∧
    ((x, y) : Int × Int) ∈ (markCell m x y d).log ∧
    (∀ c : Int × Int, c ∈ (markCell m x y d).log ↔ (c ∈ m.log ∨ c = (x, y))) ∧
    (∀ c : Int × Int, c ∈ m.log → posIn c (markCell m x y d).log = posIn c m.log) := by
  obtain ⟨hnd, hiff, hmemB⟩ := hlog
  by_cases hz : cellAt m x y = 0
  · have hl1 := markCell_log_of_zero hz d
    have hxynotin : ((x, y) : Int × Int) ∉ m.log := fun hm => (hiff x y hin).2 hm hz
    refine ⟨?_, ?_, ?_, ?_⟩
    · rw [hl1]; exact nodup_append_singleton hnd hxynotin
    · rw [hl1]; simp
    · intro c; rw [hl1]; simp
    · intro c hc; rw [hl1]; exact posIn_append_of_mem _ hc
  · have hl1 := markCell_log_of_ne hz d
    have hxyin : ((x, y) : Int × Int) ∈ m.log := (hiff x y hin).1 hz
    refine ⟨?_, ?_, ?_, ?_⟩
    · rw [hl1]; exact hnd
    · rw [hl1]; exact hxyin
    · intro c
      rw [hl1]
      constructor
      · exact Or.inl
      · rintro (hc | rfl)
        · exact hc
        · exact hxyin
    · intro c _; rw [hl1]

lemma symInv_carveMark {m : Maze} (hwf : Wf m) (hsym : SymInv m) {x y : Int} (hin : inB m x y)
    {d : Nat} (hd : d ∈ dirList) (hnb : inB m (x + DX d) (y + DY d))
    (h0 : cellAt m (x + DX d) (y + DY d) = 0) : SymInv (carveMark m x y d) := by
  intro a b hab e he hbit
  have hab' : inB m a b := hab
  have hpres := pres_carveMark m x y d
  rw [cellAt_carveMark hwf hin hd hnb h0 hab'] at hbit
  have hself : ¬(x = x + DX d ∧ y = y + DY d) := by
    rintro ⟨h1, h2⟩
    exact vec_ne_zero hd ⟨by omega, by omega⟩
  by_cases c1 : a = x + DX d ∧ b = y + DY d
  · rw [if_pos c1] at hbit
    have he' : OPPOSITE d = e := (hasDir_single (opp_mem hd) he).1 hbit
    subst he'
    obtain ⟨rfl, rfl⟩ := c1
    have hx2 : x + DX d + DX (OPPOSITE d) = x := by rw [dx_opp hd]; ring
    have hy2 : y + DY d + DY (OPPOSITE d) = y := by rw [dy_opp hd]; ring
    rw [hx2, hy2, opp_opp hd]
    refine ⟨(pres_inB hpres x y).2 hin, ?_⟩
    rw [cellAt_carveMark hwf hin hd hnb h0 hin, if_neg hself, if_pos ⟨rfl, rfl⟩]
    exact hasDir_or.2 (Or.inr ((hasDir_single hd hd).2 rfl))
  · rw [if_neg c1] at hbit
    by_cases c2 : a = x ∧ b = y
    · rw [if_pos c2] at hbit
      obtain ⟨rfl, rfl⟩ := c2
      rcases hasDir_or.1 hbit with hold | hnew
      · obtain ⟨h1, h2⟩ := hsym a b hab' e he hold
        exact ⟨(pres_inB hpres _ _).2 h1, pres_cellAt_hasDir hpres h2⟩
      · have he' : d = e := (hasDir_single hd he).1 hnew
        subst he'
        refine ⟨(pres_inB hpres _ _).2 hnb, ?_⟩
        rw [cellAt_carveMark hwf hin hd hnb h0 hnb, if_pos ⟨rfl, rfl⟩]
        exact (hasDir_single (opp_mem hd) (opp_mem hd)).2 rfl
    · rw [if_neg c2] at hbit
      obtain ⟨h1, h2⟩ := hsym a b hab' e he hbit
      exact ⟨(pres_inB hpres _ _).2 h1, pres_cellAt_hasDir hpres h2⟩

lemma logInv_carveMark {m : Maze} (hwf : Wf m) (hlog : LogInv m) {x y : Int} (hin : inB m x y)
    {d : Nat} (hd : d ∈ dirList) (hnb : inB m (x + DX d) (y + DY d))
    (h0 : cellAt m (x + DX d) (y + DY d) = 0) : LogInv (carveMark m x y d) := by
  obtain ⟨hl1nd, hl1xy, hl1mem, hl1idx⟩ := markCell_log_facts hlog hin d
  obtain ⟨hnd, hiff, hmemB⟩ := hlog
  have hpres := pres_carveMark m x y d
  have hnbne : ((x + DX d, y + DY d) : Int × Int) ≠ (x, y) := by
    intro hc
    rw [Prod.mk.injEq] at hc
    exact nbr_ne hd hc
  have hnbnotin : ((x + DX d, y + DY d) : Int × Int) ∉ m.log :=
    fun hm => (hiff _ _ hnb).2 hm h0
  have hnb1 : ((x + DX d, y + DY d) : Int × Int) ∉ (markCell m x y d).log := by
    rw [hl1mem]
    rintro (hc | hc)
    · exact hnbnotin hc
    · exact hnbne hc
  have hlg2 := log_carveMark hwf hin hd hnb h0
  refine ⟨?_, ?_, ?_⟩
  · rw [hlg2]
    exact nodup_append_singleton hl1nd hnb1
  · intro a b hab
    have hab' : inB m a b := hab
    rw [cellAt_carveMark hwf hin hd hnb h0 hab', hlg2]
    by_cases c1 : a = x + DX d ∧ b = y + DY d
    · rw [if_pos c1]
      obtain ⟨rfl, rfl⟩ := c1
      exact iff_of_true (dir_ne_zero (opp_mem hd)) (by simp)
    · rw [if_neg c1]
      by_cases c2 : a = x ∧ b = y
      · rw [if_pos c2]
        obtain ⟨rfl, rfl⟩ := c2
        exact iff_of_true (or_dir_ne_zero hd) (List.mem_append_left _ hl1xy)
      · rw [if_neg c2]
        rw [List.mem_append, hl1mem]
        simp only [List.mem_singleton, Prod.mk.injEq]
        constructor
        · intro hz
          exact Or.inl (Or.inl ((hiff a b hab').1 hz))
        · rintro ((hc | hc) | hc)
          · exact (hiff a b hab').2 hc
          · exact absurd hc c2
          · exact absurd hc c1
  · intro c hc
    rw [hlg2, List.mem_append, hl1mem] at hc
    have : inB m c.1 c.2 := by
      rcases hc with (hc | rfl) | hc
      · exact hmemB c hc
      · exact hin
      · rw [List.mem_singleton] at hc
        rw [hc]
        exact hnb
    exact (pres_inB hpres c.1 c.2).2 this

lemma upInv_carveMark {m : Maze} (hwf : Wf m) (hsym : SymInv m) (hlog : LogInv m)
    (hup : UpInv m) {x y : Int} (hin : inB m x y)
    {d : Nat} (hd : d ∈ dirList) (hnb : inB m (x + DX d) (y + DY d))
    (h0 : cellAt m (x + DX d) (y + DY d) = 0) : UpInv (carveMark m x y d) := by
  obtain ⟨hl1nd, hl1xy, hl1mem, hl1idx⟩ := markCell_log_facts hlog hin d
  have hiff := hlog.2.1
  have hnbne : ((x + DX d, y + DY d) : Int × Int) ≠ (x, y) := by
    intro hc
    rw [Prod.mk.injEq] at hc
    exact nbr_ne hd hc
  have hnbnotin : ((x + DX d, y + DY d) : Int × Int) ∉ m.log :=
    fun hm => (hiff _ _ hnb).2 hm h0
  have hnb1 : ((x + DX d, y + DY d) : Int × Int) ∉ (markCell m x y d).log := by
    rw [hl1mem]
    rintro (hc | hc)
    · exact hnbnotin hc
    · exact hnbne hc
  have hlg2 := log_carveMark hwf hin hd hnb h0
  have hidxnb : posIn ((x + DX d, y + DY d) : Int × Int) (carveMark m x y d).log =
      (markCell m x y d).log.length := by
    rw [hlg2]
    exact posIn_append_self hnb1
  have hidxmem : ∀ c : Int × Int, c ∈ (markCell m x y d).log →
      posIn c (carveMark m x y d).log = posIn c (markCell m x y d).log := by
    intro c hc
    rw [hlg2]
    exact posIn_append_of_mem _ hc
  have htr : ∀ c : Int × Int, c ∈ m.log →
      posIn c (carveMark m x y d).log = posIn c m.log := by
    intro c hc
    rw [hidxmem c ((hl1mem c).2 (Or.inl hc))]
    exact hl1idx c hc
  -- The generic case: both bits are old, transfer the order to the old log.
  have hmain : ∀ a b, inB m a b → ∀ d₁ ∈ dirList, ∀ d₂ ∈ dirList,
      hasDir (cellAt m a b) d₁ → hasDir (cellAt m a b) d₂ →
      posIn ((a + DX d₁, b + DY d₁) : Int × Int) (carveMark m x y d).log <
        posIn ((a, b) : Int × Int) (carveMark m x y d).log →
      posIn ((a + DX d₂, b + DY d₂) : Int × Int) (carveMark m x y d).log <
        posIn ((a, b) : Int × Int) (carveMark m x y d).log → d₁ = d₂ := by
    intro a b hab d₁ hd₁ d₂ hd₂ hq₁ hq₂ hl₁ hl₂
    have habm : ((a, b) : Int × Int) ∈ m.log := (hiff a b hab).1 (ne_zero_of_hasDir hq₁)
    have hn₁ : ((a + DX d₁, b + DY d₁) : Int × Int) ∈ m.log := by
      obtain ⟨hIn, hBack⟩ := hsym a b hab d₁ hd₁ hq₁
      exact (hiff _ _ hIn).1 (ne_zero_of_hasDir hBack)
    have hn₂ : ((a + DX d₂, b + DY d₂) : Int × Int) ∈ m.log := by
      obtain ⟨hIn, hBack⟩ := hsym a b hab d₂ hd₂ hq₂
      exact (hiff _ _ hIn).1 (ne_zero_of_hasDir hBack)
    rw [htr _ hn₁, htr _ habm] at hl₁
    rw [htr _ hn₂, htr _ habm] at hl₂
    exact hup a b hab d₁ hd₁ d₂ hd₂ hq₁ hq₂ hl₁ hl₂
  intro a b hab d₁ hd₁ d₂ hd₂ hb₁ hb₂ hlt₁ hlt₂
  have hab' : inB m a b := hab
  rw [cellAt_carveMark hwf hin hd hnb h0 hab'] at hb₁ hb₂
  by_cases c1 : a = x + DX d ∧ b = y + DY d
  · rw [if_pos c1] at hb₁ hb₂
    have e₁ : OPPOSITE d = d₁ := (hasDir_single (opp_mem hd) hd₁).1 hb₁
    have e₂ : OPPOSITE d = d₂ := (hasDir_single (opp_mem hd) hd₂).1 hb₂
    rw [← e₁, ← e₂]
  · rw [if_neg c1] at hb₁ hb₂
    by_cases c2 : a = x ∧ b = y
    · rw [if_pos c2] at hb₁ hb₂
      obtain ⟨rfl, rfl⟩ := c2
      have hxyidx : posIn ((a, b) : Int × Int) (carveMark m a b d).log <
          (markCell m a b d).log.length := by
        rw [hidxmem _ hl1xy]
        exact posIn_lt_length hl1xy
      have helim : ∀ e, e ∈ dirList → hasDir (cellAt m a b ||| d) e →
          posIn ((a + DX e, b + DY e) : Int × Int) (carveMark m a b d).log <
            posIn ((a, b) : Int × Int) (carveMark m a b d).log →
          hasDir (cellAt m a b) e := by
        intro e he hbit hlt
        rcases hasDir_or.1 hbit with hold | hnew
        · exact hold
        · exfalso
          have hde : d = e := (hasDir_single hd he).1 hnew
          subst hde
          rw [hidxnb] at hlt
          omega
      exact hmain a b hab' d₁ hd₁ d₂ hd₂ (helim d₁ hd₁ hb₁ hlt₁) (helim d₂ hd₂ hb₂ hlt₂)
        hlt₁ hlt₂
    · rw [if_neg c2] at hb₁ hb₂
      exact hmain a b hab' d₁ hd₁ d₂ hd₂ hb₁ hb₂ hlt₁ hlt₂

/-- One successful carve preserves all run invariants. -/
lemma runInv_carveMark {m : Maze} (hI : RunInv m) {x y : Int} (hin : inB m x y)
    {d : Nat} (hd : d ∈ dirList) (hnb : inB m (x + DX d) (y + DY d))
    (h0 : cellAt m (x + DX d) (y + DY d) = 0) : RunInv (carveMark m x y d) := by
  obtain ⟨hwf, hsym, hlog, hup⟩ := hI
  exact ⟨wf_of_pres hwf (pres_carveMark m x y d), symInv_carveMark hwf hsym hin hd hnb h0,
    logInv_carveMark hwf hlog hin hd hnb h0, upInv_carveMark hwf hsym hlog hup hin hd hnb h0⟩

/-! ### Counting: visited cells, edges, recursive entries -/

/-- Number of visited (nonzero) cells of the grid. -/
def visited (m : Maze) : Nat := m.grid.countP (fun v => !(v == 0))

/-- Number of East bits plus number of South bits in the grid.  Under the
symmetry invariant each carved passage contributes exactly one such bit, so
this counts the edges of the passage graph. -/
def esCount (m : Maze) : Nat :=
  m.grid.countP (fun v => decide (hasDir v E)) + m.grid.countP (fun v => decide (hasDir v S))

/-- Indicator: the run from `m` to `m'` turned cell `(x, y)` from unvisited
to visited. -/
def transAt (m m' : Maze) (x y : Int) : Nat :=
  if cellAt m x y = 0 ∧ cellAt m' x y ≠ 0 then 1 else 0

lemma countP_set_getD (p : Nat → Bool) (l : List Nat) (i a : Nat) (hi : i < l.length) :
    (l.set i a).countP p + (if p (l.getD i 0) then 1 else 0) =
      l.countP p + (if p a then 1 else 0) := by
  rw [List.countP_set p l i a hi, List.getD_eq_getElem _ _ hi]
  by_cases hp : p l[i] = true
  · have hpos : 0 < l.countP p := List.countP_pos_iff.2 ⟨l[i], List.getElem_mem hi, hp⟩
    rw [if_pos hp]
    omega
  · rw [if_neg hp]
    omega

lemma transAt_comp {m1 m2 m3 : Maze} (x y : Int)
    (h21 : cellAt m1 x y ≠ 0 → cellAt m2 x y ≠ 0)
    (h32 : cellAt m2 x y ≠ 0 → cellAt m3 x y ≠ 0) :
    transAt m1 m3 x y = transAt m1 m2 x y + transAt m2 m3 x y := by
  unfold transAt
  by_cases h2 : cellAt m2 x y = 0
  · by_cases h3 : cellAt m3 x y = 0
    · simp [h2, h3]
    · by_cases h1 : cellAt m1 x y = 0
      · simp [h1, h2, h3]
      · exact absurd h2 (h21 h1)
  · have h3 : cellAt m3 x y ≠ 0 := h32 h2
    by_cases h1 : cellAt m1 x y = 0 <;> simp [h1, h2, h3]

/-- The per-call counting relation at carve anchor `(x, y)`: the number of
newly opened East/South bits, and the number of recursive entries, both match
the number of newly visited cells (up to the anchor transition). -/
def CRel (x y : Int) (m m' : Maze) : Prop :=
  esCount m' + transAt m m' x y + visited m = esCount m + visited m' ∧
  m'.calls + transAt m m' x y + visited m ≤ m.calls + visited m'

lemma crel_refl (x y : Int) (m : Maze) : CRel x y m m := by
  unfold CRel transAt
  simp

lemma crel_comp {x y : Int} {m1 m2 m3 : Maze} (hp1 : Pres m1 m2) (hp2 : Pres m2 m3)
    (h1 : CRel x y m1 m2) (h2 : CRel x y m2 m3) : CRel x y m1 m3 := by
  have ht := transAt_comp x y (fun h => pres_cellAt_ne hp1 h) (fun h => pres_cellAt_ne hp2 h)
  obtain ⟨e1, c1⟩ := h1
  obtain ⟨e2, c2⟩ := h2
  constructor
  · omega
  · omega

lemma if_decide_eq (P : Prop) [Decidable P] :
    ((if decide P = true then 1 else 0) : Nat) = if P then 1 else 0 := by
  by_cases h : P <;> simp [h]

lemma indicator_or {v d e : Nat} (hfresh : ¬hasDir v d) (hd : d ∈ dirList) (he : e ∈ dirList) :
    ((if hasDir (v ||| d) e then 1 else 0) : Nat) =
      (if hasDir v e then 1 else 0) + (if d = e then 1 else 0) := by
  by_cases hde : d = e
  · subst hde
    rw [if_pos (hasDir_or.2 (Or.inr ((hasDir_single hd hd).2 rfl))), if_neg hfresh, if_pos rfl]
  · have hiff : hasDir (v ||| d) e ↔ hasDir v e := by
      rw [hasDir_or]
      constructor
      · rintro (h | h)
        · exact h
        · exact absurd ((hasDir_single hd he).1 h) hde
      · exact Or.inl
    rw [if_neg hde]
    by_cases hv : hasDir v e
    · rw [if_pos (hiff.2 hv), if_pos hv]
    · rw [if_neg (fun hh => hv (hiff.1 hh)), if_neg hv]

lemma indicator_single {b e : Nat} (hb : b ∈ dirList) (he : e ∈ dirList) :
    ((if hasDir b e then 1 else 0) : Nat) = if b = e then 1 else 0 := by
  by_cases hbe : b = e
  · rw [if_pos ((hasDir_single hb he).2 hbe), if_pos hbe]
  · rw [if_neg (fun hh => hbe ((hasDir_single hb he).1 hh)), if_neg hbe]

lemma es_change_one {d : Nat} (hd : d ∈ dirList) :
    ((if d = E then 1 else 0) + (if OPPOSITE d = E then 1 else 0)) +
      ((if d = S then 1 else 0) + (if OPPOSITE d = S then 1 else 0)) = 1 := by
  rcases mem_dirList_iff.1 hd with rfl | rfl | rfl | rfl <;> decide

lemma counts_carveMark {m : Maze} (hwf : Wf m) (hsym : SymInv m) {x y : Int} (hin : inB m x y)
    {d : Nat} (hd : d ∈ dirList) (hnb : inB m (x + DX d) (y + DY d))
    (h0 : cellAt m (x + DX d) (y + DY d) = 0) :
    visited (carveMark m x y d) + (if cellAt m x y = 0 then 0 else 1) = visited m + 2 ∧
    esCount (carveMark m x y d) = esCount m + 1 ∧
    transAt m (carveMark m x y d) x y = (if cellAt m x y = 0 then 1 else 0) ∧
    (carveMark m x y d).calls = m.calls := by
  have hfresh : ¬hasDir (cellAt m x y) d :=
    fun hb => (ne_zero_of_hasDir (hsym x y hin d hd hb).2) h0
  have hi1 : (m.index x y).toNat < m.grid.length := index_toNat_lt hwf hin
  have hi2 : (m.index (x + DX d) (y + DY d)).toNat < m.grid.length := index_toNat_lt hwf hnb
  have hcell1nb : cellAt (markCell m x y d) (x + DX d) (y + DY d) = 0 := by
    rw [cellAt_markCell_of_ne hwf hin d hnb (nbr_ne hd)]
    exact h0
  have hgrid2 : (carveMark m x y d).grid =
      (markCell m x y d).grid.set (m.index (x + DX d) (y + DY d)).toNat (OPPOSITE d) := by
    show (markCell m x y d).grid.set ((markCell m x y d).index (x + DX d) (y + DY d)).toNat
        (cellAt (markCell m x y d) (x + DX d) (y + DY d) ||| OPPOSITE d) = _
    rw [hcell1nb, Nat.zero_or]
    rfl
  have hkey : ∀ p : Nat → Bool,
      (carveMark m x y d).grid.countP p + (if p (cellAt m x y) = true then 1 else 0) +
          (if p 0 = true then 1 else 0) =
        m.grid.countP p + (if p (cellAt m x y ||| d) = true then 1 else 0) +
          (if p (OPPOSITE d) = true then 1 else 0) := by
    intro p
    have hs1 := countP_set_getD p m.grid (m.index x y).toNat (cellAt m x y ||| d) hi1
    have hlen1 : (markCell m x y d).grid.length = m.grid.length := markCell_grid_length m x y d
    have hs2 := countP_set_getD p (markCell m x y d).grid
      (m.index (x + DX d) (y + DY d)).toNat (OPPOSITE d) (by omega)
    rw [show (markCell m x y d).grid.getD (m.index (x + DX d) (y + DY d)).toNat 0 = 0
      from hcell1nb] at hs2
    have e1 : (markCell m x y d).grid.countP p =
        (m.grid.set (m.index x y).toNat (cellAt m x y ||| d)).countP p := rfl
    have e2 : m.grid.getD (m.index x y).toNat 0 = cellAt m x y := rfl
    rw [e2] at hs1
    rw [← e1] at hs1
    rw [hgrid2]
    omega
  have hself : ¬((x : Int) = x + DX d ∧ (y : Int) = y + DY d) := by
    rintro ⟨h1, h2⟩
    exact vec_ne_zero hd ⟨by omega, by omega⟩
  have hcell2xy : cellAt (carveMark m x y d) x y = cellAt m x y ||| d := by
    rw [cellAt_carveMark hwf hin hd hnb h0 hin, if_neg hself, if_pos ⟨rfl, rfl⟩]
  refine ⟨?_, ?_, ?_, rfl⟩
  · have hv := hkey (fun v => !(v == 0))
    have hind : ∀ v : Nat, ((if (!(v == 0)) = true then 1 else 0) : Nat) =
        if v = 0 then 0 else 1 := by
      intro v
      by_cases hz : v = 0 <;> simp [hz]
    rw [hind, hind, hind, hind] at hv
    rw [if_neg (or_dir_ne_zero hd), if_neg (dir_ne_zero (opp_mem hd)), if_pos rfl] at hv
    show (carveMark m x y d).grid.countP (fun v => !(v == 0)) + _ = m.grid.countP (fun v => !(v == 0)) + 2
    omega
  · have hE := hkey (fun v => decide (hasDir v E))
    have hS := hkey (fun v => decide (hasDir v S))
    rw [if_decide_eq, if_decide_eq, if_decide_eq, if_decide_eq] at hE hS
    rw [if_neg (not_hasDir_zero E),
      indicator_or hfresh hd (by rw [mem_dirList_iff]; tauto),
      indicator_single (opp_mem hd) (by rw [mem_dirList_iff]; tauto)] at hE
    rw [if_neg (not_hasDir_zero S),
      indicator_or hfresh hd (by rw [mem_dirList_iff]; tauto),
      indicator_single (opp_mem hd) (by rw [mem_dirList_iff]; tauto)] at hS
    have hone := es_change_one hd
    show (carveMark m x y d).grid.countP (fun v => decide (hasDir v E)) +
        (carveMark m x y d).grid.countP (fun v => decide (hasDir v S)) =
      m.grid.countP (fun v => decide (hasDir v E)) +
        m.grid.countP (fun v => decide (hasDir v S)) + 1
    omega
  · unfold transAt
    rw [hcell2xy]
    by_cases hz : cellAt m x y = 0
    · rw [if_pos ⟨hz, or_dir_ne_zero hd⟩, if_pos hz]
    · rw [if_neg (fun hc => hz hc.1), if_neg hz]

lemma cellAt_carveMark_self_ne {m : Maze} (hwf : Wf m) {x y : Int} (hin : inB m x y)
    {d : Nat} (hd : d ∈ dirList) (hnb : inB m (x + DX d) (y + DY d))
    (h0 : cellAt m (x + DX d) (y + DY d) = 0) : cellAt (carveMark m x y d) x y ≠ 0 := by
  have hself : ¬((x : Int) = x + DX d ∧ (y : Int) = y + DY d) := by
    rintro ⟨h1, h2⟩
    exact vec_ne_zero hd ⟨by omega, by omega⟩
  rw [cellAt_carveMark hwf hin hd hnb h0 hin, if_neg hself, if_pos ⟨rfl, rfl⟩]
  exact or_dir_ne_zero hd

lemma cellAt_carveMark_nbr_ne {m : Maze} (hwf : Wf m) {x y : Int} (hin : inB m x y)
    {d : Nat} (hd : d ∈ dirList) (hnb : inB m (x + DX d) (y + DY d))
    (h0 : cellAt m (x + DX d) (y + DY d) = 0) :
    cellAt (carveMark m x y d) (x + DX d) (y + DY d) ≠ 0 := by
  rw [cellAt_carveMark hwf hin hd hnb h0 hnb, if_pos ⟨rfl, rfl⟩]
  exact dir_ne_zero (opp_mem hd)

/-! ### Invariant propagation through the carver -/

lemma runInv_tryDir {recur : Maze → Int → Int → Maze}
    (hrec : ∀ m x y, RunInv m → inB m x y → RunInv (recur m x y))
    {m : Maze} {x y : Int} {d : Nat} (hd : d ∈ dirList) (hI : RunInv m) (hin : inB m x y) :
    RunInv (tryDir recur x y d m) := by
  rw [tryDir_eq]
  by_cases hc : 0 ≤ y + DY d ∧ y + DY d ≤ m.height - 1 ∧ 0 ≤ x + DX d ∧ x + DX d ≤ m.width - 1 ∧
      cellAt m (x + DX d) (y + DY d) = 0
  · rw [if_pos hc]
    obtain ⟨h1, h2, h3, h4, h0⟩ := hc
    have hnb : inB m (x + DX d) (y + DY d) := ⟨h1, h2, h3, h4⟩
    exact hrec _ _ _ (runInv_carveMark hI hin hd hnb h0) hnb
  · rw [if_neg hc]
    exact hI

lemma runInv_carveF (fuel : Nat) : ∀ (m : Maze) (x y : Int),
    RunInv m → inB m x y → RunInv (carveF fuel m x y) := by
  induction fuel with
  | zero => exact fun m x y hI _ => hI
  | succ fuel ih =>
    intro m x y hI hin
    rw [carveF_succ]
    have hI0 : RunInv (shuffleDirs { m with calls := m.calls + 1 }).1 := by
      rw [shuffleDirs_fst]
      exact hI
    have hin0 : inB (shuffleDirs { m with calls := m.calls + 1 }).1 x y := by
      rw [shuffleDirs_fst]
      exact hin
    have hpres : ∀ (d : Nat) (mm : Maze), Pres mm (tryDir (carveF fuel) x y d mm) :=
      fun d mm => pres_tryDir (fun a b c => pres_carveF fuel a b c) x y d mm
    have hI1 := runInv_tryDir ih (shuffleDirs_getD_mem { m with calls := m.calls + 1 } (by omega : (0:Nat) < 4)) hI0 hin0
    have hin1 := (pres_inB (hpres ((shuffleDirs { m with calls := m.calls + 1 }).2.getD 0 0) _) x y).2 hin0
    have hI2 := runInv_tryDir ih (shuffleDirs_getD_mem { m with calls := m.calls + 1 } (by omega : (1:Nat) < 4)) hI1 hin1
    have hin2 := (pres_inB (hpres ((shuffleDirs { m with calls := m.calls + 1 }).2.getD 1 0) _) x y).2 hin1
    have hI3 := runInv_tryDir ih (shuffleDirs_getD_mem { m with calls := m.calls + 1 } (by omega : (2:Nat) < 4)) hI2 hin2
    have hin3 := (pres_inB (hpres ((shuffleDirs { m with calls := m.calls + 1 }).2.getD 2 0) _) x y).2 hin2
    exact runInv_tryDir ih (shuffleDirs_getD_mem { m with calls := m.calls + 1 } (by omega : (3:Nat) < 4)) hI3 hin3

lemma counts_tryDir {fuel : Nat}
    (ih : ∀ (m : Maze) (x y : Int), RunInv m → inB m x y →
      esCount (carveF fuel m x y) + transAt m (carveF fuel m x y) x y + visited m
          = esCount m + visited (carveF fuel m x y) ∧
      (carveF fuel m x y).calls + transAt m (carveF fuel m x y) x y + visited m
          ≤ m.calls + 1 + visited (carveF fuel m x y))
    {m : Maze} {x y : Int} {d : Nat} (hd : d ∈ dirList) (hI : RunInv m) (hin : inB m x y) :
    CRel x y m (tryDir (carveF fuel) x y d m) := by
  rw [tryDir_eq]
  by_cases hc : 0 ≤ y + DY d ∧ y + DY d ≤ m.height - 1 ∧ 0 ≤ x + DX d ∧ x + DX d ≤ m.width - 1 ∧
      cellAt m (x + DX d) (y + DY d) = 0
  · rw [if_pos hc]
    obtain ⟨h1, h2, h3, h4, h0⟩ := hc
    have hnb : inB m (x + DX d) (y + DY d) := ⟨h1, h2, h3, h4⟩
    obtain ⟨hwf, hsym, hlog, hup⟩ := hI
    obtain ⟨hvis, hes, htr, hcalls⟩ := counts_carveMark hwf hsym hin hd hnb h0
    have hI2 : RunInv (carveMark m x y d) := runInv_carveMark ⟨hwf, hsym, hlog, hup⟩ hin hd hnb h0
    have hnb2 : inB (carveMark m x y d) (x + DX d) (y + DY d) := hnb
    obtain ⟨ihe, ihc⟩ := ih (carveMark m x y d) (x + DX d) (y + DY d) hI2 hnb2
    have hcell2nb := cellAt_carveMark_nbr_ne hwf hin hd hnb h0
    have hcell2xy := cellAt_carveMark_self_ne hwf hin hd hnb h0
    have ht' : transAt (carveMark m x y d)
        (carveF fuel (carveMark m x y d) (x + DX d) (y + DY d)) (x + DX d) (y + DY d) = 0 := by
      unfold transAt
      rw [if_neg (fun hc2 => hcell2nb hc2.1)]
    have ht2' : transAt (carveMark m x y d)
        (carveF fuel (carveMark m x y d) (x + DX d) (y + DY d)) x y = 0 := by
      unfold transAt
      rw [if_neg (fun hc2 => hcell2xy hc2.1)]
    have htm : transAt m (carveF fuel (carveMark m x y d) (x + DX d) (y + DY d)) x y =
        transAt m (carveMark m x y d) x y := by
      rw [transAt_comp x y (fun h => pres_cellAt_ne (pres_carveMark m x y d) h)
        (fun h => pres_cellAt_ne (pres_carveF fuel _ _ _) h), ht2']
      omega
    have hcompl : (if cellAt m x y = 0 then (1:Nat) else 0) +
        (if cellAt m x y = 0 then (0:Nat) else 1) = 1 := by
      by_cases hz : cellAt m x y = 0 <;> simp [hz]
    rw [ht'] at ihe ihc
    unfold CRel
    rw [htm, htr]
    omega
  · rw [if_neg hc]
    exact crel_refl x y m

lemma counts_carveF (fuel : Nat) : ∀ (m : Maze) (x y : Int), RunInv m → inB m x y →
    esCount (carveF fuel m x y) + transAt m (carveF fuel m x y) x y + visited m
        = esCount m + visited (carveF fuel m x y) ∧
    (carveF fuel m x y).calls + transAt m (carveF fuel m x y) x y + visited m
        ≤ m.calls + 1 + visited (carveF fuel m x y) := by
  induction fuel with
  | zero =>
    intro m x y _ _
    constructor
    · simp [carveF, transAt]
    · simp [carveF, transAt]
  | succ fuel ih =>
    intro m x y hI hin
    rw [carveF_succ]
    have hI0 : RunInv (shuffleDirs { m with calls := m.calls + 1 }).1 := by
      rw [shuffleDirs_fst]
      exact hI
    have hin0 : inB (shuffleDirs { m with calls := m.calls + 1 }).1 x y := by
      rw [shuffleDirs_fst]
      exact hin
    have hpres : ∀ (d : Nat) (mm : Maze), Pres mm (tryDir (carveF fuel) x y d mm) :=
      fun d mm => pres_tryDir (fun a b c => pres_carveF fuel a b c) x y d mm
    have hI1 := runInv_tryDir (runInv_carveF fuel)
      (shuffleDirs_getD_mem { m with calls := m.calls + 1 } (by omega : (0:Nat) < 4)) hI0 hin0
    have hin1 := (pres_inB (hpres ((shuffleDirs { m with calls := m.calls + 1 }).2.getD 0 0) _)
      x y).2 hin0
    have hI2 := runInv_tryDir (runInv_carveF fuel)
      (shuffleDirs_getD_mem { m with calls := m.calls + 1 } (by omega : (1:Nat) < 4)) hI1 hin1
    have hin2 := (pres_inB (hpres ((shuffleDirs { m with calls := m.calls + 1 }).2.getD 1 0) _)
      x y).2 hin1
    have hI3 := runInv_tryDir (runInv_carveF fuel)
      (shuffleDirs_getD_mem { m with calls := m.calls + 1 } (by omega : (2:Nat) < 4)) hI2 hin2
    have hin3 := (pres_inB (hpres ((shuffleDirs { m with calls := m.calls + 1 }).2.getD 2 0) _)
      x y).2 hin2
    have c1 := counts_tryDir ih
      (shuffleDirs_getD_mem { m with calls := m.calls + 1 } (by omega : (0:Nat) < 4)) hI0 hin0
    have c2 := counts_tryDir ih
      (shuffleDirs_getD_mem { m with calls := m.calls + 1 } (by omega : (1:Nat) < 4)) hI1 hin1
    have c3 := counts_tryDir ih
      (shuffleDirs_getD_mem { m with calls := m.calls + 1 } (by omega : (2:Nat) < 4)) hI2 hin2
    have c4 := counts_tryDir ih
      (shuffleDirs_getD_mem { m with calls := m.calls + 1 } (by omega : (3:Nat) < 4)) hI3 hin3
    have call := crel_comp (hpres _ _)
      (pres_trans (hpres _ _) (pres_trans (hpres _ _) (hpres _ _)))
      c1 (crel_comp (hpres _ _) (pres_trans (hpres _ _) (hpres _ _)) c2
        (crel_comp (hpres _ _) (hpres _ _) c3 c4))
    obtain ⟨he, hcl⟩ := call
    have hes0 : esCount (shuffleDirs { m with calls := m.calls + 1 }).1 = esCount m := rfl
    have hvis0 : visited (shuffleDirs { m with calls := m.calls + 1 }).1 = visited m := rfl
    have hcalls0 : (shuffleDirs { m with calls := m.calls + 1 }).1.calls = m.calls + 1 := rfl
    have htr0 : ∀ m' : Maze, transAt (shuffleDirs { m with calls := m.calls + 1 }).1 m' x y =
        transAt m m' x y := fun _ => rfl
    rw [hes0, hvis0, htr0] at he
    rw [hvis0, hcalls0, htr0] at hcl
    exact ⟨he, by omega⟩

/-! ### The shuffled list is a permutation of the four directions -/

lemma count_listSwap (l : List Nat) (i r : Nat) (hi : i < l.length) (hr : r < l.length)
    (a : Nat) : (listSwap l i r).count a = l.count a := by
  have h1 := countP_set_getD (fun x => x == a) l i (l.getD r 0) hi
  have h2 := countP_set_getD (fun x => x == a) (l.set i (l.getD r 0)) r (l.getD i 0)
    (by simpa using hr)
  have hgd : (l.set i (l.getD r 0)).getD r 0 = l.getD r 0 := by
    rw [getD_set_eq_ite]
    by_cases hir : i = r ∧ r < l.length
    · rw [if_pos hir]
    · rw [if_neg hir]
  rw [hgd] at h2
  show ((l.set i (l.getD r 0)).set r (l.getD i 0)).countP (fun x => x == a) =
    l.countP (fun x => x == a)
  omega

lemma count_shuffleStep {i : Nat} (hi : i < 4) {p : Maze × List Nat} (hlen : p.2.length = 4)
    (a : Nat) : (shuffleStep i p).2.count a = p.2.count a := by
  have h4 : 0 < 4 - i := by omega
  have hm := Nat.mod_lt ((randM p.1).1) h4
  exact count_listSwap p.2 i (i + (randM p.1).1 % (4 - i)) (by omega) (by omega) a

lemma count_shuffleDirs (m : Maze) (a : Nat) : (shuffleDirs m).2.count a = dirList.count a := by
  unfold shuffleDirs
  have l0 : (dirList : List Nat).length = 4 := rfl
  have l1 := shuffleStep_snd_length (i := 0) (m, dirList)
  have l2 := shuffleStep_snd_length (i := 1) (shuffleStep 0 (m, dirList))
  have l3 := shuffleStep_snd_length (i := 2) (shuffleStep 1 (shuffleStep 0 (m, dirList)))
  rw [count_shuffleStep (by omega : (3:Nat) < 4) (by simp_all),
    count_shuffleStep (by omega : (2:Nat) < 4) (by simp_all),
    count_shuffleStep (by omega : (1:Nat) < 4) (by simp_all),
    count_shuffleStep (by omega : (0:Nat) < 4) (by simp_all)]

lemma shuffleDirs_coverage (m : Maze) {d : Nat} (hd : d ∈ dirList) :
    ∃ k, k < 4 ∧ (shuffleDirs m).2.getD k 0 = d := by
  have hmem : d ∈ (shuffleDirs m).2 := by
    have hc := count_shuffleDirs m d
    have hpos : 0 < dirList.count d := List.count_pos_iff.2 hd
    exact List.count_pos_iff.1 (by omega)
  obtain ⟨k, hk, he⟩ := List.getElem_of_mem hmem
  refine ⟨k, ?_, ?_⟩
  · rw [shuffleDirs_snd_length m] at hk
    exact hk
  · rw [List.getD_eq_getElem _ _ hk]
    exact he

/-! ### Monotonicity of the visited count -/

lemma countP_mono_pointwise (p : Nat → Bool) : ∀ (l l' : List Nat), l.length = l'.length →
    (∀ k, k < l.length → p (l.getD k 0) = true → p (l'.getD k 0) = true) →
    l.countP p ≤ l'.countP p := by
  intro l
  induction l with
  | nil => intro l' _ _; simp
  | cons a l ihl =>
    intro l' hlen hpt
    cases l' with
    | nil => simp at hlen
    | cons b l₂ =>
      have h0 : p a = true → p b = true := hpt 0 (by simp)
      have ht : l.countP p ≤ l₂.countP p := by
        apply ihl l₂ (by simpa using hlen)
        intro k hk hp
        exact hpt (k + 1) (by simpa using Nat.succ_lt_succ hk) hp
      rw [List.countP_cons, List.countP_cons]
      by_cases hpa : p a = true
      · have hpb := h0 hpa
        rw [if_pos hpa, if_pos hpb]
        omega
      · rw [if_neg hpa]
        by_cases hpb : p b = true
        · rw [if_pos hpb]
          omega
        · rw [if_neg hpb]
          omega

lemma visited_mono {m m' : Maze} (h : Pres m m') : visited m ≤ visited m' := by
  unfold visited
  apply countP_mono_pointwise _ _ _ h.2.2.2.1.symm
  intro k hk hp
  have h1 : m.grid.getD k 0 ≠ 0 := by simpa using hp
  have h2 := h.2.2.2.2.2.2 k h1
  simpa using h2

lemma visited_le_length (m : Maze) : visited m ≤ m.grid.length :=
  List.countP_le_length _

/-! ### Closure: after a call returns, every neighbor it could reach is visited -/

lemma tryDir_nbr_ne {recur : Maze → Int → Int → Maze}
    (hpr : ∀ mm a b, Pres mm (recur mm a b)) {mm : Maze} {x y : Int} {d : Nat}
    (hwfm : Wf mm) (hinm : inB mm x y) (hd : d ∈ dirList)
    (hnbm : inB mm (x + DX d) (y + DY d)) :
    cellAt (tryDir recur x y d mm) (x + DX d) (y + DY d) ≠ 0 := by
  rw [tryDir_eq]
  obtain ⟨b1, b2, b3, b4⟩ := hnbm
  by_cases hz : cellAt mm (x + DX d) (y + DY d) = 0
  · rw [if_pos ⟨b1, b2, b3, b4, hz⟩]
    exact pres_cellAt_ne (hpr _ _ _) (cellAt_carveMark_nbr_ne hwfm hinm hd ⟨b1, b2, b3, b4⟩ hz)
  · rw [if_neg (fun hc => hz hc.2.2.2.2)]
    exact hz

/-- Statement of the closure property at a given fuel: after
`create_passage_from(x, y)` returns, every in-bounds neighbor of the anchor
is visited, and every cell the call turned from unvisited to visited has all
of its in-bounds neighbors visited. -/
def ClosureProp (fuel : Nat) : Prop :=
  ∀ (m : Maze) (x y : Int), RunInv m → inB m x y → m.grid.length < visited m + fuel →
    (∀ d ∈ dirList, inB m (x + DX d) (y + DY d) →
        cellAt (carveF fuel m x y) (x + DX d) (y + DY d) ≠ 0) ∧
    (∀ a b, inB m a b → cellAt m a b = 0 → cellAt (carveF fuel m x y) a b ≠ 0 →
        ∀ e ∈ dirList, inB m (a + DX e) (b + DY e) →
          cellAt (carveF fuel m x y) (a + DX e) (b + DY e) ≠ 0)

lemma closure_tryDir {fuel : Nat} (ih : ClosureProp fuel) {m : Maze} {x y : Int} {d : Nat}
    (hd : d ∈ dirList) (hI : RunInv m) (hin : inB m x y)
    (hfuel : m.grid.length < visited m + (fuel + 1)) :
    ∀ a b, inB m a b → ¬(a = x ∧ b = y) → cellAt m a b = 0 →
      cellAt (tryDir (carveF fuel) x y d m) a b ≠ 0 →
      ∀ e ∈ dirList, inB m (a + DX e) (b + DY e) →
        cellAt (tryDir (carveF fuel) x y d m) (a + DX e) (b + DY e) ≠ 0 := by
  intro a b hab hne hz hnz e he hnbe
  rw [tryDir_eq] at hnz ⊢
  by_cases hc : 0 ≤ y + DY d ∧ y + DY d ≤ m.height - 1 ∧ 0 ≤ x + DX d ∧ x + DX d ≤ m.width - 1 ∧
      cellAt m (x + DX d) (y + DY d) = 0
  · rw [if_pos hc] at hnz ⊢
    obtain ⟨b1, b2, b3, b4, h0⟩ := hc
    have hnb : inB m (x + DX d) (y + DY d) := ⟨b1, b2, b3, b4⟩
    obtain ⟨hwf, hsym, hlog, hup⟩ := hI
    have hI2 : RunInv (carveMark m x y d) :=
      runInv_carveMark ⟨hwf, hsym, hlog, hup⟩ hin hd hnb h0
    have hfuel2 : (carveMark m x y d).grid.length < visited (carveMark m x y d) + fuel := by
      have hv := (counts_carveMark hwf hsym hin hd hnb h0).1
      have hlen : (carveMark m x y d).grid.length = m.grid.length :=
        (pres_carveMark m x y d).2.2.2.1
      have hle : (if cellAt m x y = 0 then (0:Nat) else 1) ≤ 1 := by
        by_cases hcc : cellAt m x y = 0 <;> simp [hcc]
      omega
    obtain ⟨ihc1, ihc2⟩ := ih (carveMark m x y d) (x + DX d) (y + DY d) hI2 hnb hfuel2
    by_cases hab2 : a = x + DX d ∧ b = y + DY d
    · obtain ⟨rfl, rfl⟩ := hab2
      exact ihc1 e he hnbe
    · have hz2 : cellAt (carveMark m x y d) a b = 0 := by
        rw [cellAt_carveMark hwf hin hd hnb h0 hab, if_neg hab2, if_neg hne]
        exact hz
      exact ihc2 a b hab hz2 hnz e he hnbe
  · rw [if_neg hc] at hnz
    exact absurd hz hnz

lemma closure_carveF : ∀ fuel : Nat, ClosureProp fuel := by
  intro fuel
  induction fuel with
  | zero =>
    intro m x y _ _ hfuel
    have := visited_le_length m
    omega
  | succ fuel ih =>
    intro m x y hI hin hfuel
    rw [carveF_succ]
    set A := shuffleDirs { m with calls := m.calls + 1 } with hA
    set t0 := A.2.getD 0 0 with ht0
    set t1 := A.2.getD 1 0 with ht1
    set t2 := A.2.getD 2 0 with ht2
    set t3 := A.2.getD 3 0 with ht3
    set M1 := tryDir (carveF fuel) x y t0 A.1 with hM1
    set M2 := tryDir (carveF fuel) x y t1 M1 with hM2
    set M3 := tryDir (carveF fuel) x y t2 M2 with hM3
    set M4 := tryDir (carveF fuel) x y t3 M3 with hM4
    have hI0 : RunInv A.1 := by rw [hA, shuffleDirs_fst]; exact hI
    have hin0 : inB A.1 x y := by rw [hA, shuffleDirs_fst]; exact hin
    have hd0 : t0 ∈ dirList := by
      rw [ht0, hA]; exact shuffleDirs_getD_mem _ (by omega : (0:Nat) < 4)
    have hd1 : t1 ∈ dirList := by
      rw [ht1, hA]; exact shuffleDirs_getD_mem _ (by omega : (1:Nat) < 4)
    have hd2 : t2 ∈ dirList := by
      rw [ht2, hA]; exact shuffleDirs_getD_mem _ (by omega : (2:Nat) < 4)
    have hd3 : t3 ∈ dirList := by
      rw [ht3, hA]; exact shuffleDirs_getD_mem _ (by omega : (3:Nat) < 4)
    have hp1 : Pres A.1 M1 := by
      rw [hM1]; exact pres_tryDir (fun a b c => pres_carveF fuel a b c) x y t0 A.1
    have hI1 : RunInv M1 := by
      rw [hM1]; exact runInv_tryDir (runInv_carveF fuel) hd0 hI0 hin0
    have hin1 : inB M1 x y := (pres_inB hp1 x y).2 hin0
    have hp2 : Pres M1 M2 := by
      rw [hM2]; exact pres_tryDir (fun a b c => pres_carveF fuel a b c) x y t1 M1
    have hI2 : RunInv M2 := by
      rw [hM2]; exact runInv_tryDir (runInv_carveF fuel) hd1 hI1 hin1
    have hin2 : inB M2 x y := (pres_inB hp2 x y).2 hin1
    have hp3 : Pres M2 M3 := by
      rw [hM3]; exact pres_tryDir (fun a b c => pres_carveF fuel a b c) x y t2 M2
    have hI3 : RunInv M3 := by
      rw [hM3]; exact runInv_tryDir (runInv_carveF fuel) hd2 hI2 hin2
    have hin3 : inB M3 x y := (pres_inB hp3 x y).2 hin2
    have hp4 : Pres M3 M4 := by
      rw [hM4]; exact pres_tryDir (fun a b c => pres_carveF fuel a b c) x y t3 M3
    have hp24 : Pres M1 M4 := pres_trans hp2 (pres_trans hp3 hp4)
    have hp34 : Pres M2 M4 := pres_trans hp3 hp4
    have hlen0 : A.1.grid.length = m.grid.length := by rw [hA, shuffleDirs_fst]
    have hvis0 : visited A.1 = visited m := by rw [hA, shuffleDirs_fst]; rfl
    have hcell0 : ∀ a b : Int, cellAt A.1 a b = cellAt m a b := by
      rw [hA, shuffleDirs_fst]; intro a b; rfl
    have hinB0 : ∀ a b : Int, inB A.1 a b ↔ inB m a b := by
      rw [hA, shuffleDirs_fst]; intro a b; exact Iff.rfl
    have hf0 : A.1.grid.length < visited A.1 + (fuel + 1) := by rw [hlen0, hvis0]; exact hfuel
    have hf1 : M1.grid.length < visited M1 + (fuel + 1) := by
      have hv := visited_mono hp1
      have hl := hp1.2.2.2.1
      omega
    have hf2 : M2.grid.length < visited M2 + (fuel + 1) := by
      have hv := visited_mono (pres_trans hp1 hp2)
      have hl := (pres_trans hp1 hp2).2.2.2.1
      omega
    have hf3 : M3.grid.length < visited M3 + (fuel + 1) := by
      have hv := visited_mono (pres_trans hp1 (pres_trans hp2 hp3))
      have hl := (pres_trans hp1 (pres_trans hp2 hp3)).2.2.2.1
      omega
    have hwf0 : Wf A.1 := hI0.1
    have hwf1 : Wf M1 := hI1.1
    have hwf2 : Wf M2 := hI2.1
    have hwf3 : Wf M3 := hI3.1
    have hconj1 : ∀ d ∈ dirList, inB m (x + DX d) (y + DY d) →
        cellAt M4 (x + DX d) (y + DY d) ≠ 0 := by
      intro d hd hnbd
      obtain ⟨k, hk, hgd⟩ := shuffleDirs_coverage { m with calls := m.calls + 1 } hd
      rw [← hA] at hgd
      interval_cases k
      · rw [← ht0] at hgd
        subst hgd
        have h := tryDir_nbr_ne (fun a b c => pres_carveF fuel a b c) hwf0 hin0 hd
          ((hinB0 _ _).2 hnbd)
        rw [← hM1] at h
        exact pres_cellAt_ne hp24 h
      · rw [← ht1] at hgd
        subst hgd
        have h := tryDir_nbr_ne (fun a b c => pres_carveF fuel a b c) hwf1 hin1 hd
          ((pres_inB hp1 _ _).2 ((hinB0 _ _).2 hnbd))
        rw [← hM2] at h
        exact pres_cellAt_ne hp34 h
      · rw [← ht2] at hgd
        subst hgd
        have h := tryDir_nbr_ne (fun a b c => pres_carveF fuel a b c) hwf2 hin2 hd
          ((pres_inB (pres_trans hp1 hp2) _ _).2 ((hinB0 _ _).2 hnbd))
        rw [← hM3] at h
        exact pres_cellAt_ne hp4 h
      · rw [← ht3] at hgd
        subst hgd
        have h := tryDir_nbr_ne (fun a b c => pres_carveF fuel a b c) hwf3 hin3 hd
          ((pres_inB (pres_trans hp1 (pres_trans hp2 hp3)) _ _).2 ((hinB0 _ _).2 hnbd))
        rw [← hM4] at h
        exact h
    refine ⟨hconj1, ?_⟩
    intro a b hab hz hnz e he hnbe
    by_cases hxy : a = x ∧ b = y
    · obtain ⟨rfl, rfl⟩ := hxy
      exact hconj1 e he hnbe
    · have hz0 : cellAt A.1 a b = 0 := by rw [hcell0]; exact hz
      have hab0 : inB A.1 a b := (hinB0 _ _).2 hab
      have hnbe0 : inB A.1 (a + DX e) (b + DY e) := (hinB0 _ _).2 hnbe
      by_cases hz1 : cellAt M1 a b = 0
      · by_cases hz2 : cellAt M2 a b = 0
        · by_cases hz3 : cellAt M3 a b = 0
          · have hstep := closure_tryDir ih hd3 hI3 hin3 hf3 a b
              ((pres_inB (pres_trans hp1 (pres_trans hp2 hp3)) _ _).2 hab0) hxy hz3
              (by rw [← hM4] at *; exact hnz) e he
              ((pres_inB (pres_trans hp1 (pres_trans hp2 hp3)) _ _).2 hnbe0)
            rw [← hM4] at hstep
            exact hstep
          · have hstep := closure_tryDir ih hd2 hI2 hin2 hf2 a b
              ((pres_inB (pres_trans hp1 hp2) _ _).2 hab0) hxy hz2
              (by rw [← hM3]; exact hz3) e he
              ((pres_inB (pres_trans hp1 hp2) _ _).2 hnbe0)
            rw [← hM3] at hstep
            exact pres_cellAt_ne hp4 hstep
        · have hstep := closure_tryDir ih hd1 hI1 hin1 hf1 a b
            ((pres_inB hp1 _ _).2 hab0) hxy hz1
            (by rw [← hM2]; exact hz2) e he
            ((pres_inB hp1 _ _).2 hnbe0)
          rw [← hM2] at hstep
          exact pres_cellAt_ne hp34 hstep
      · have hstep := closure_tryDir ih hd0 hI0 hin0 hf0 a b hab0 hxy hz0
          (by rw [← hM1]; exact hz1) e he hnbe0
        rw [← hM1] at hstep
        exact pres_cellAt_ne hp24 hstep

/-! ### Reachability along open passages -/

/-- Reachability between cells along open passage bits of a state. -/
inductive Reach (m : Maze) : Int × Int → Int × Int → Prop
  | refl (c : Int × Int) : Reach m c c
  | step {c c' : Int × Int} (d : Nat) : Reach m c c' → d ∈ dirList →
      inB m (c'.1 + DX d) (c'.2 + DY d) → hasDir (cellAt m c'.1 c'.2) d →
      Reach m c (c'.1 + DX d, c'.2 + DY d)

lemma reach_mono {m m' : Maze} (h : Pres m m') {c₁ c₂ : Int × Int}
    (hr : Reach m c₁ c₂) : Reach m' c₁ c₂ := by
  induction hr with
  | refl => exact Reach.refl _
  | step d hr hd hin hbit ih =>
    exact Reach.step d ih hd ((pres_inB h _ _).2 hin) (pres_cellAt_hasDir h hbit)

lemma reach_trans {m : Maze} {a b c : Int × Int} (h1 : Reach m a b) (h2 : Reach m b c) :
    Reach m a c := by
  induction h2 with
  | refl => exact h1
  | step d hr hd hin hbit ih => exact Reach.step d ih hd hin hbit

/-- Statement of the reachability property at a given fuel: every cell that
`create_passage_from(x, y)` turned from unvisited to visited is connected to
the anchor in the resulting grid. -/
def ReachProp (fuel : Nat) : Prop :=
  ∀ (m : Maze) (x y : Int), RunInv m → inB m x y → m.grid.length < visited m + fuel →
    ∀ a b, inB m a b → cellAt m a b = 0 → cellAt (carveF fuel m x y) a b ≠ 0 →
      Reach (carveF fuel m x y) ((x, y) : Int × Int) ((a, b) : Int × Int)

lemma reach_tryDir {fuel : Nat} (ih : ReachProp fuel) {m : Maze} {x y : Int} {d : Nat}
    (hd : d ∈ dirList) (hI : RunInv m) (hin : inB m x y)
    (hfuel : m.grid.length < visited m + (fuel + 1)) :
    ∀ a b, inB m a b → cellAt m a b = 0 →
      cellAt (tryDir (carveF fuel) x y d m) a b ≠ 0 →
      Reach (tryDir (carveF fuel) x y d m) ((x, y) : Int × Int) ((a, b) : Int × Int) := by
  intro a b hab hz hnz
  by_cases hxy : a = x ∧ b = y
  · obtain ⟨rfl, rfl⟩ := hxy
    exact Reach.refl _
  rw [tryDir_eq] at hnz ⊢
  by_cases hc : 0 ≤ y + DY d ∧ y + DY d ≤ m.height - 1 ∧ 0 ≤ x + DX d ∧ x + DX d ≤ m.width - 1 ∧
      cellAt m (x + DX d) (y + DY d) = 0
  · rw [if_pos hc] at hnz ⊢
    obtain ⟨b1, b2, b3, b4, h0⟩ := hc
    have hnb : inB m (x + DX d) (y + DY d) := ⟨b1, b2, b3, b4⟩
    obtain ⟨hwf, hsym, hlog, hup⟩ := hI
    have hI2 : RunInv (carveMark m x y d) :=
      runInv_carveMark ⟨hwf, hsym, hlog, hup⟩ hin hd hnb h0
    have hfuel2 : (carveMark m x y d).grid.length < visited (carveMark m x y d) + fuel := by
      have hv := (counts_carveMark hwf hsym hin hd hnb h0).1
      have hlen : (carveMark m x y d).grid.length = m.grid.length :=
        (pres_carveMark m x y d).2.2.2.1
      have hle : (if cellAt m x y = 0 then (0:Nat) else 1) ≤ 1 := by
        by_cases hcc : cellAt m x y = 0 <;> simp [hcc]
      omega
    have hpresR : Pres (carveMark m x y d)
        (carveF fuel (carveMark m x y d) (x + DX d) (y + DY d)) := pres_carveF fuel _ _ _
    have hstep1 : Reach (carveF fuel (carveMark m x y d) (x + DX d) (y + DY d))
        ((x, y) : Int × Int) ((x + DX d, y + DY d) : Int × Int) := by
      have hbit : hasDir (cellAt (carveMark m x y d) x y) d := by
        have hself : ¬((x : Int) = x + DX d ∧ (y : Int) = y + DY d) := by
          rintro ⟨h1, h2⟩
          exact vec_ne_zero hd ⟨by omega, by omega⟩
        rw [cellAt_carveMark hwf hin hd hnb h0 hin, if_neg hself, if_pos ⟨rfl, rfl⟩]
        exact hasDir_or.2 (Or.inr ((hasDir_single hd hd).2 rfl))
      exact Reach.step d (Reach.refl _) hd ((pres_inB hpresR _ _).2 hnb)
        (pres_cellAt_hasDir hpresR hbit)
    by_cases hab2 : a = x + DX d ∧ b = y + DY d
    · obtain ⟨rfl, rfl⟩ := hab2
      exact hstep1
    · have hz2 : cellAt (carveMark m x y d) a b = 0 := by
        rw [cellAt_carveMark hwf hin hd hnb h0 hab, if_neg hab2, if_neg hxy]
        exact hz
      have hchild := ih (carveMark m x y d) (x + DX d) (y + DY d) hI2 hnb hfuel2
        a b hab hz2 hnz
      exact reach_trans hstep1 hchild
  · rw [if_neg hc] at hnz
    exact absurd hz hnz

lemma reach_carveF : ∀ fuel : Nat, ReachProp fuel := by
  intro fuel
  induction fuel with
  | zero =>
    intro m x y _ _ hfuel
    have := visited_le_length m
    omega
  | succ fuel ih =>
    intro m x y hI hin hfuel
    rw [carveF_succ]
    set A := shuffleDirs { m with calls := m.calls + 1 } with hA
    set t0 := A.2.getD 0 0 with ht0
    set t1 := A.2.getD 1 0 with ht1
    set t2 := A.2.getD 2 0 with ht2
    set t3 := A.2.getD 3 0 with ht3
    set M1 := tryDir (carveF fuel) x y t0 A.1 with hM1
    set M2 := tryDir (carveF fuel) x y t1 M1 with hM2
    set M3 := tryDir (carveF fuel) x y t2 M2 with hM3
    set M4 := tryDir (carveF fuel) x y t3 M3 with hM4
    have hI0 : RunInv A.1 := by rw [hA, shuffleDirs_fst]; exact hI
    have hin0 : inB A.1 x y := by rw [hA, shuffleDirs_fst]; exact hin
    have hd0 : t0 ∈ dirList := by
      rw [ht0, hA]; exact shuffleDirs_getD_mem _ (by omega : (0:Nat) < 4)
    have hd1 : t1 ∈ dirList := by
      rw [ht1, hA]; exact shuffleDirs_getD_mem _ (by omega : (1:Nat) < 4)
    have hd2 : t2 ∈ dirList := by
      rw [ht2, hA]; exact shuffleDirs_getD_mem _ (by omega : (2:Nat) < 4)
    have hd3 : t3 ∈ dirList := by
      rw [ht3, hA]; exact shuffleDirs_getD_mem _ (by omega : (3:Nat) < 4)
    have hp1 : Pres A.1 M1 := by
      rw [hM1]; exact pres_tryDir (fun a b c => pres_carveF fuel a b c) x y t0 A.1
    have hI1 : RunInv M1 := by
      rw [hM1]; exact runInv_tryDir (runInv_carveF fuel) hd0 hI0 hin0
    have hin1 : inB M1 x y := (pres_inB hp1 x y).2 hin0
    have hp2 : Pres M1 M2 := by
      rw [hM2]; exact pres_tryDir (fun a b c => pres_carveF fuel a b c) x y t1 M1
    have hI2 : RunInv M2 := by
      rw [hM2]; exact runInv_tryDir (runInv_carveF fuel) hd1 hI1 hin1
    have hin2 : inB M2 x y := (pres_inB hp2 x y).2 hin1
    have hp3 : Pres M2 M3 := by
      rw [hM3]; exact pres_tryDir (fun a b c => pres_carveF fuel a b c) x y t2 M2
    have hI3 : RunInv M3 := by
      rw [hM3]; exact runInv_tryDir (runInv_carveF fuel) hd2 hI2 hin2
    have hin3 : inB M3 x y := (pres_inB hp3 x y).2 hin2
    have hp4 : Pres M3 M4 := by
      rw [hM4]; exact pres_tryDir (fun a b c => pres_carveF fuel a b c) x y t3 M3
    have hp24 : Pres M1 M4 := pres_trans hp2 (pres_trans hp3 hp4)
    have hp34 : Pres M2 M4 := pres_trans hp3 hp4
    have hlen0 : A.1.grid.length = m.grid.length := by rw [hA, shuffleDirs_fst]
    have hvis0 : visited A.1 = visited m := by rw [hA, shuffleDirs_fst]; rfl
    have hcell0 : ∀ a b : Int, cellAt A.1 a b = cellAt m a b := by
      rw [hA, shuffleDirs_fst]; intro a b; rfl
    have hinB0 : ∀ a b : Int, inB A.1 a b ↔ inB m a b := by
      rw [hA, shuffleDirs_fst]; intro a b; exact Iff.rfl
    have hf0 : A.1.grid.length < visited A.1 + (fuel + 1) := by rw [hlen0, hvis0]; exact hfuel
    have hf1 : M1.grid.length < visited M1 + (fuel + 1) := by
      have hv := visited_mono hp1
      have hl := hp1.2.2.2.1
      omega
    have hf2 : M2.grid.length < visited M2 + (fuel + 1) := by
      have hv := visited_mono (pres_trans hp1 hp2)
      have hl := (pres_trans hp1 hp2).2.2.2.1
      omega
    have hf3 : M3.grid.length < visited M3 + (fuel + 1) := by
      have hv := visited_mono (pres_trans hp1 (pres_trans hp2 hp3))
      have hl := (pres_trans hp1 (pres_trans hp2 hp3)).2.2.2.1
      omega
    intro a b hab hz hnz
    have hz0 : cellAt A.1 a b = 0 := by rw [hcell0]; exact hz
    have hab0 : inB A.1 a b := (hinB0 _ _).2 hab
    by_cases hz1 : cellAt M1 a b = 0
    · by_cases hz2 : cellAt M2 a b = 0
      · by_cases hz3 : cellAt M3 a b = 0
        · have hstep := reach_tryDir ih hd3 hI3 hin3 hf3 a b
            ((pres_inB (pres_trans hp1 (pres_trans hp2 hp3)) _ _).2 hab0) hz3
            (by rw [← hM4] at *; exact hnz)
          rw [← hM4] at hstep
          exact hstep
        · have hstep := reach_tryDir ih hd2 hI2 hin2 hf2 a b
            ((pres_inB (pres_trans hp1 hp2) _ _).2 hab0) hz2 (by rw [← hM3]; exact hz3)
          rw [← hM3] at hstep
          exact reach_mono hp4 hstep
      · have hstep := reach_tryDir ih hd1 hI1 hin1 hf1 a b
          ((pres_inB hp1 _ _).2 hab0) hz1 (by rw [← hM2]; exact hz2)
        rw [← hM2] at hstep
        exact reach_mono hp34 hstep
    · have hstep := reach_tryDir ih hd0 hI0 hin0 hf0 a b hab0 hz0 (by rw [← hM1]; exact hz1)
      rw [← hM1] at hstep
      exact reach_mono hp24 hstep

/-! ### The initial state and the full run -/

lemma cellAt_mkMaze (w h s : Int) (rng : Nat → Nat) (a b : Int) :
    cellAt (mkMaze w h s rng) a b = 0 := by
  show (List.replicate (w * h).toNat 0).getD ((mkMaze w h s rng).index a b).toNat 0 = 0
  by_cases hk : ((mkMaze w h s rng).index a b).toNat < (List.replicate (w * h).toNat (0:Nat)).length
  · rw [List.getD_eq_getElem _ _ hk, List.getElem_replicate]
  · rw [List.getD_eq_default _ _ (Nat.le_of_not_lt hk)]

lemma countP_replicate_zero (p : Nat → Bool) (hp : p 0 = false) (n : Nat) :
    (List.replicate n (0:Nat)).countP p = 0 := by
  induction n with
  | zero => rfl
  | succ n ihn => rw [List.replicate_succ, List.countP_cons, hp]; simpa using ihn

lemma visited_mkMaze (w h s : Int) (rng : Nat → Nat) : visited (mkMaze w h s rng) = 0 := by
  unfold visited
  exact countP_replicate_zero _ (by simp) _

lemma esCount_mkMaze (w h s : Int) (rng : Nat → Nat) : esCount (mkMaze w h s rng) = 0 := by
  unfold esCount
  rw [show (mkMaze w h s rng).grid = List.replicate (w * h).toNat 0 from rfl,
    countP_replicate_zero _ (by decide) _, countP_replicate_zero _ (by decide) _]

lemma runInv_mkMaze (w h s : Int) (rng : Nat → Nat) (hw : 1 ≤ w) (hh : 1 ≤ h) :
    RunInv (mkMaze w h s rng) := by
  refine ⟨⟨hw, hh, by simp [mkMaze]⟩, ?_, ⟨List.nodup_nil, ?_, ?_⟩, ?_⟩
  · intro a b hab d hd hbit
    rw [cellAt_mkMaze] at hbit
    exact absurd hbit (not_hasDir_zero d)
  · intro a b hab
    rw [cellAt_mkMaze]
    simp [mkMaze]
  · intro c hc
    simp [mkMaze] at hc
  · intro a b hab d₁ hd₁ d₂ hd₂ hb₁ hb₂ h₁ h₂
    rw [cellAt_mkMaze] at hb₁
    exact absurd hb₁ (not_hasDir_zero d₁)

lemma inB_mkMaze (w h s : Int) (rng : Nat → Nat) (a b : Int) :
    inB (mkMaze w h s rng) a b ↔ (0 ≤ b ∧ b ≤ h - 1 ∧ 0 ≤ a ∧ a ≤ w - 1) := by
  simp [inB, mkMaze]

lemma backTracker_eq (w h s : Int) (rng : Nat → Nat) :
    backTracker w h s rng =
      carveF ((mkMaze w h s rng).grid.length + 1) (mkMaze w h s rng) 0 0 := rfl

lemma pres_backTracker (w h s : Int) (rng : Nat → Nat) :
    Pres (mkMaze w h s rng) (backTracker w h s rng) := pres_carveF _ _ _ _

lemma runInv_backTracker (w h s : Int) (rng : Nat → Nat) (hw : 1 ≤ w) (hh : 1 ≤ h) :
    RunInv (backTracker w h s rng) := by
  rw [backTracker_eq]
  exact runInv_carveF _ _ _ _ (runInv_mkMaze w h s rng hw hh)
    ((inB_mkMaze w h s rng 0 0).2 ⟨by omega, by omega, by omega, by omega⟩)

lemma grid_length_backTracker (w h s : Int) (rng : Nat → Nat) :
    (backTracker w h s rng).grid.length = (w * h).toNat := by
  rw [(pres_backTracker w h s rng).2.2.2.1]
  simp [mkMaze]

lemma inB_backTracker (w h s : Int) (rng : Nat → Nat) (a b : Int) :
    inB (backTracker w h s rng) a b ↔ (0 ≤ b ∧ b ≤ h - 1 ∧ 0 ≤ a ∧ a ≤ w - 1) := by
  rw [pres_inB (pres_backTracker w h s rng)]
  exact inB_mkMaze w h s rng a b

lemma dir_eval :
    DX E = 1 ∧ DY E = 0 ∧ DX S = 0 ∧ DY S = 1 ∧ DX W = -1 ∧ DY W = 0 ∧ DX N = 0 ∧
      DY N = -1 ∧ E ∈ dirList ∧ S ∈ dirList ∧ W ∈ dirList ∧ N ∈ dirList := by
  refine ⟨?_, ?_, ?_, ?_, ?_, ?_, ?_, ?_, ?_, ?_, ?_, ?_⟩ <;> decide

lemma allVisited (w h s : Int) (rng : Nat → Nat) (hw : 1 ≤ w) (hh : 1 ≤ h)
    (h2 : 2 ≤ w * h) : ∀ a b : Int, 0 ≤ b → b ≤ h - 1 → 0 ≤ a → a ≤ w - 1 →
    cellAt (backTracker w h s rng) a b ≠ 0 := by
  obtain ⟨hdxE, hdyE, hdxS, hdyS, hdxW, hdyW, hdxN, hdyN, hEm, hSm, hWm, hNm⟩ := dir_eval
  have hInit := runInv_mkMaze w h s rng hw hh
  have hin0 : inB (mkMaze w h s rng) 0 0 :=
    (inB_mkMaze w h s rng 0 0).2 ⟨by omega, by omega, by omega, by omega⟩
  have hfuel : (mkMaze w h s rng).grid.length <
      visited (mkMaze w h s rng) + ((mkMaze w h s rng).grid.length + 1) := by
    omega
  obtain ⟨hc1, hc2⟩ := closure_carveF ((mkMaze w h s rng).grid.length + 1)
    (mkMaze w h s rng) 0 0 hInit hin0 hfuel
  rw [← backTracker_eq] at hc1 hc2
  have hstep : ∀ a b : Int, (0 ≤ b ∧ b ≤ h - 1 ∧ 0 ≤ a ∧ a ≤ w - 1) →
      cellAt (backTracker w h s rng) a b ≠ 0 → ∀ e ∈ dirList,
      (0 ≤ b + DY e ∧ b + DY e ≤ h - 1 ∧ 0 ≤ a + DX e ∧ a + DX e ≤ w - 1) →
      cellAt (backTracker w h s rng) (a + DX e) (b + DY e) ≠ 0 := by
    intro a b hab hnz e he hnb
    exact hc2 a b ((inB_mkMaze w h s rng a b).2 hab) (cellAt_mkMaze w h s rng a b) hnz e he
      ((inB_mkMaze w h s rng _ _).2 hnb)
  have hroot : cellAt (backTracker w h s rng) 0 0 ≠ 0 := by
    rcases (by omega : (w = 1 ∧ h = 1) ∨ 2 ≤ w ∨ 2 ≤ h) with ⟨rfl, rfl⟩ | hw2 | hh2
    · norm_num at h2
    · have hnbE : inB (mkMaze w h s rng) (0 + DX E) (0 + DY E) := by
        rw [inB_mkMaze, hdxE, hdyE]
        refine ⟨by omega, by omega, by omega, by omega⟩
      have h1 := hc1 E hEm hnbE
      have hback := hstep (0 + DX E) (0 + DY E)
        (by rw [hdxE, hdyE]; exact ⟨by omega, by omega, by omega, by omega⟩) h1 W hWm
        (by rw [hdxE, hdyE, hdxW, hdyW]; exact ⟨by omega, by omega, by omega, by omega⟩)
      rw [hdxE, hdyE, hdxW, hdyW] at hback
      norm_num at hback
      exact hback
    · have hnbS : inB (mkMaze w h s rng) (0 + DX S) (0 + DY S) := by
        rw [inB_mkMaze, hdxS, hdyS]
        refine ⟨by omega, by omega, by omega, by omega⟩
      have h1 := hc1 S hSm hnbS
      have hback := hstep (0 + DX S) (0 + DY S)
        (by rw [hdxS, hdyS]; exact ⟨by omega, by omega, by omega, by omega⟩) h1 N hNm
        (by rw [hdxS, hdyS, hdxN, hdyN]; exact ⟨by omega, by omega, by omega, by omega⟩)
      rw [hdxS, hdyS, hdxN, hdyN] at hback
      norm_num at hback
      exact hback
  have main : ∀ n : Nat, ∀ a b : Int, 0 ≤ b → b ≤ h - 1 → 0 ≤ a → a ≤ w - 1 →
      (a + b).toNat = n → cellAt (backTracker w h s rng) a b ≠ 0 := by
    intro n
    induction n using Nat.strong_induction_on with
    | _ n ihn =>
      intro a b hb0 hb1 ha0 ha1 hn
      by_cases h00 : a = 0 ∧ b = 0
      · obtain ⟨rfl, rfl⟩ := h00
        exact hroot
      · by_cases ha : 1 ≤ a
        · have hprev := ihn (a - 1 + b).toNat (by omega) (a - 1) b hb0 hb1 (by omega)
            (by omega) rfl
          have hs := hstep (a - 1) b ⟨hb0, hb1, by omega, by omega⟩ hprev E hEm
            ⟨by rw [hdyE]; omega, by rw [hdyE]; omega, by rw [hdxE]; omega,
              by rw [hdxE]; omega⟩
          rw [hdxE, hdyE] at hs
          have e1 : a - 1 + 1 = a := by omega
          have e2 : b + 0 = b := by omega
          rw [e1, e2] at hs
          exact hs
        · have hb : 1 ≤ b := by omega
          have hprev := ihn (a + (b - 1)).toNat (by omega) a (b - 1) (by omega) (by omega)
            ha0 ha1 rfl
          have hs := hstep a (b - 1) ⟨by omega, by omega, ha0, ha1⟩ hprev S hSm
            ⟨by rw [hdyS]; omega, by rw [hdyS]; omega, by rw [hdxS]; omega,
              by rw [hdxS]; omega⟩
          rw [hdxS, hdyS] at hs
          have e1 : a + 0 = a := by omega
          have e2 : b - 1 + 1 = b := by omega
          rw [e1, e2] at hs
          exact hs
  intro a b hb0 hb1 ha0 ha1
  exact main (a + b).toNat a b hb0 hb1 ha0 ha1 rfl

lemma countP_eq_length_of_all (p : Nat → Bool) : ∀ l : List Nat,
    (∀ k, k < l.length → p (l.getD k 0) = true) → l.countP p = l.length := by
  intro l
  induction l with
  | nil => intro _; rfl
  | cons a t iht =>
    intro hall
    have hpa : p a = true := hall 0 (by simp)
    rw [List.countP_cons,
      iht (fun k hk => hall (k + 1) (by simpa using Nat.succ_lt_succ hk)), if_pos hpa]
    simp

lemma countP_lt_length_of (p : Nat → Bool) : ∀ (l : List Nat) (k : Nat), k < l.length →
    p (l.getD k 0) = false → l.countP p < l.length := by
  intro l
  induction l with
  | nil =>
    intro k hk
    simp at hk
  | cons a t iht =>
    intro k hk hp
    rw [List.countP_cons]
    cases k with
    | zero =>
      have hpa : p a = false := hp
      rw [if_neg (by simp [hpa])]
      have := List.countP_le_length p (l := t)
      simp only [List.length_cons]
      omega
    | succ k =>
      have hrec := iht k (by simpa using Nat.lt_of_succ_lt_succ hk) hp
      have hle : (if p a = true then (1:Nat) else 0) ≤ 1 := by
        by_cases hpa : p a = true <;> simp [hpa]
      simp only [List.length_cons]
      omega

lemma visited_backTracker (w h s : Int) (rng : Nat → Nat) (hw : 1 ≤ w) (hh : 1 ≤ h)
    (h2 : 2 ≤ w * h) : visited (backTracker w h s rng) = (w * h).toNat := by
  unfold visited
  rw [← grid_length_backTracker w h s rng]
  apply countP_eq_length_of_all
  intro k hk
  have hw0 : (0:Int) < w := by omega
  have ha := Int.emod_nonneg (k : Int) (by omega : w ≠ 0)
  have ha2 := Int.emod_lt_of_pos (k : Int) hw0
  have hlen := grid_length_backTracker w h s rng
  have hkw : (k : Int) < w * h := by
    have hkn : (k:Nat) < (w * h).toNat := by omega
    omega
  have hb0 : 0 ≤ (k : Int) / w := Int.ediv_nonneg (by omega) (by omega)
  have h5 := Int.ediv_add_emod (k : Int) w
  have hb1 : (k : Int) / w ≤ h - 1 := by
    by_contra hcon
    push_neg at hcon
    have h3 : h ≤ (k:Int) / w := by omega
    have h4 : w * h ≤ w * ((k:Int) / w) := mul_le_mul_of_nonneg_left h3 (by omega)
    omega
  have hnz := allVisited w h s rng hw hh h2 ((k:Int) % w) ((k:Int) / w) hb0 hb1 ha (by omega)
  have hWw : (backTracker w h s rng).width = w := (pres_backTracker w h s rng).1
  have hco : ((backTracker w h s rng).index ((k:Int) % w) ((k:Int) / w)).toNat = k := by
    unfold Maze.index
    rw [hWw]
    have h6 : ((k:Int) / w) * w = w * ((k:Int) / w) := mul_comm _ _
    omega
  rw [cellAt_eq_getD, hco] at hnz
  simpa using hnz

lemma counts_backTracker (w h s : Int) (rng : Nat → Nat) (hw : 1 ≤ w) (hh : 1 ≤ h) :
    esCount (backTracker w h s rng) +
        transAt (mkMaze w h s rng) (backTracker w h s rng) 0 0 =
      visited (backTracker w h s rng) ∧
    (backTracker w h s rng).calls +
        transAt (mkMaze w h s rng) (backTracker w h s rng) 0 0 ≤
      1 + visited (backTracker w h s rng) := by
  have hInit := runInv_mkMaze w h s rng hw hh
  have hin0 : inB (mkMaze w h s rng) 0 0 :=
    (inB_mkMaze w h s rng 0 0).2 ⟨by omega, by omega, by omega, by omega⟩
  obtain ⟨he, hc⟩ := counts_carveF ((mkMaze w h s rng).grid.length + 1)
    (mkMaze w h s rng) 0 0 hInit hin0
  rw [← backTracker_eq] at he hc
  rw [esCount_mkMaze, visited_mkMaze] at he
  rw [visited_mkMaze] at hc
  have hc0 : (mkMaze w h s rng).calls = 0 := rfl
  rw [hc0] at hc
  omega

lemma transAt_backTracker_one (w h s : Int) (rng : Nat → Nat) (hw : 1 ≤ w) (hh : 1 ≤ h)
    (h2 : 2 ≤ w * h) :
    transAt (mkMaze w h s rng) (backTracker w h s rng) 0 0 = 1 := by
  unfold transAt
  rw [cellAt_mkMaze]
  rw [if_pos ⟨rfl, allVisited w h s rng hw hh h2 0 0 (by omega) (by omega) (by omega) (by omega)⟩]

lemma esCount_backTracker (w h s : Int) (rng : Nat → Nat) (hw : 1 ≤ w) (hh : 1 ≤ h)
    (h2 : 2 ≤ w * h) : esCount (backTracker w h s rng) + 1 = (w * h).toNat := by
  have := (counts_backTracker w h s rng hw hh).1
  rw [transAt_backTracker_one w h s rng hw hh h2,
    visited_backTracker w h s rng hw hh h2] at this
  exact this

lemma calls_backTracker (w h s : Int) (rng : Nat → Nat) (hw : 1 ≤ w) (hh : 1 ≤ h) :
    (backTracker w h s rng).calls ≤ (w * h).toNat := by
  have hc := (counts_backTracker w h s rng hw hh).2
  have hvl : visited (backTracker w h s rng) ≤ (w * h).toNat := by
    rw [← grid_length_backTracker w h s rng]
    exact visited_le_length _
  have hlen := grid_length_backTracker w h s rng
  have hpos : 1 ≤ (w * h).toNat := by
    have : (1:Int) * 1 ≤ w * h := mul_le_mul hw hh (by omega) (by omega)
    omega
  by_cases h00 : cellAt (backTracker w h s rng) 0 0 = 0
  · have ht : transAt (mkMaze w h s rng) (backTracker w h s rng) 0 0 = 0 := by
      unfold transAt
      rw [if_neg (fun hcc => hcc.2 h00)]
    have hidx : ((backTracker w h s rng).index 0 0).toNat = 0 := by
      unfold Maze.index
      simp
    have hvlt : visited (backTracker w h s rng) < (backTracker w h s rng).grid.length := by
      apply countP_lt_length_of _ _ 0 (by omega)
      rw [cellAt_eq_getD, hidx] at h00
      rw [h00]
      rfl
    omega
  · have ht : transAt (mkMaze w h s rng) (backTracker w h s rng) 0 0 = 1 := by
      unfold transAt
      rw [cellAt_mkMaze, if_pos ⟨rfl, h00⟩]
    omega

/-! ### A graph with a rank function giving each vertex at most one lower neighbor is acyclic -/

lemma acyclic_of_rank {V : Type} [DecidableEq V] (G : SimpleGraph V) (t : V → Nat)
    (hne : ∀ u v, G.Adj u v → t u ≠ t v)
    (huniq : ∀ v u₁ u₂, G.Adj v u₁ → G.Adj v u₂ → t u₁ < t v → t u₂ < t v → u₁ = u₂) :
    G.IsAcyclic := by
  intro v c hc
  have hsupne : c.support.toFinset.Nonempty :=
    ⟨v, by simp [SimpleGraph.Walk.start_mem_support]⟩
  obtain ⟨u, hu, hmax⟩ := Finset.exists_max_image c.support.toFinset t hsupne
  rw [List.mem_toFinset] at hu
  have hkey : ∃ c' : G.Walk u u, c'.IsCycle ∧ ∀ a ∈ c'.support, t a ≤ t u := by
    refine ⟨c.rotate hu, hc.rotate hu, ?_⟩
    intro a ha
    apply hmax
    rw [List.mem_toFinset]
    rcases (SimpleGraph.Walk.mem_support_iff (c.rotate hu)).1 ha with rfl | ha'
    · exact hu
    · have hrot := SimpleGraph.Walk.support_rotate c hu
      have hmem := hrot.perm.mem_iff.1 ha'
      exact List.mem_of_mem_tail hmem
  obtain ⟨c', hc', hsub⟩ := hkey
  clear hmax hu hc hsupne
  cases c' with
  | nil =>
    have h3 := hc'.three_le_length
    simp at h3
  | @cons _ b0 _ hadj p =>
    have h3 := hc'.three_le_length
    rw [SimpleGraph.Walk.length_cons] at h3
    have hedges := hc'.isTrail.edges_nodup
    rw [SimpleGraph.Walk.edges_cons] at hedges
    have hb0mem : b0 ∈ (SimpleGraph.Walk.cons hadj p).support := by
      rw [SimpleGraph.Walk.support_cons]
      exact List.mem_cons_of_mem u p.start_mem_support
    have htb0 : t b0 < t u := by
      have h1 := hsub b0 hb0mem
      have h2 := hne u b0 hadj
      omega
    -- decompose the reverse of p to get the last edge
    have hplen : p.length = p.reverse.length := (SimpleGraph.Walk.length_reverse p).symm
    rcases hrev : p.reverse with _ | @⟨_, b1, _, hadj2, q⟩
    · rw [hrev] at hplen
      simp at hplen
      omega
    · 
      -- hadj2 : G.Adj u b1, q : walk b1 b0?? check orientation
      have hb1mem : b1 ∈ p.support := by
        have h5 : b1 ∈ p.reverse.support := by
          rw [hrev, SimpleGraph.Walk.support_cons]
          exact List.mem_cons_of_mem u q.start_mem_support
        rw [SimpleGraph.Walk.support_reverse] at h5
        exact List.mem_reverse.1 h5
      have htb1 : t b1 < t u := by
        have h1 := hsub b1 (by
          rw [SimpleGraph.Walk.support_cons]
          exact List.mem_cons_of_mem u hb1mem)
        have h2 := hne u b1 hadj2
        omega
      have hbeq : b0 = b1 := huniq u b0 b1 hadj hadj2 htb0 htb1
      subst hbeq
      have hmem_edge : s(u, b0) ∈ p.edges := by
        have h6 : s(u, b0) ∈ p.reverse.edges := by
          rw [hrev, SimpleGraph.Walk.edges_cons]
          exact List.mem_cons_self _ _
        rw [SimpleGraph.Walk.edges_reverse] at h6
        exact List.mem_reverse.1 h6
      rw [List.nodup_cons] at hedges
      exact hedges.1 hmem_edge

/-! ### The passage graph of a carved maze -/

/-- Integer coordinates of a vertex of the `w × h` cell grid. -/
def vcoord {w h : Nat} (v : Fin w × Fin h) : Int × Int := ((v.1 : Int), (v.2 : Int))

/-- One open passage from cell `c` to cell `c'` in direction `d`. -/
def dirStep (M : Maze) (c c' : Int × Int) (d : Nat) : Prop :=
  c' = (c.1 + DX d, c.2 + DY d) ∧ hasDir (cellAt M c.1 c.2) d

instance (M : Maze) (c c' : Int × Int) (d : Nat) : Decidable (dirStep M c c' d) := by
  unfold dirStep
  infer_instance

/-- The passage graph: cells as vertices, open bit-pairs as edges. -/
def passageGraph (M : Maze) (w h : Nat) : SimpleGraph (Fin w × Fin h) where
  Adj u v := u ≠ v ∧ ∃ d ∈ dirList,
    (dirStep M (vcoord u) (vcoord v) d ∨ dirStep M (vcoord v) (vcoord u) d)
  symm := by
    rintro u v ⟨hne, d, hd, hor⟩
    exact ⟨hne.symm, d, hd, hor.symm⟩
  loopless := by
    rintro u ⟨hne, _⟩
    exact hne rfl

instance (M : Maze) (w h : Nat) : DecidableRel (passageGraph M w h).Adj := fun u v =>
  decidable_of_iff (u ≠ v ∧ ∃ d ∈ dirList,
    (dirStep M (vcoord u) (vcoord v) d ∨ dirStep M (vcoord v) (vcoord u) d)) Iff.rfl

lemma vcoord_inj {w h : Nat} {u v : Fin w × Fin h} (hc : vcoord u = vcoord v) : u = v := by
  obtain ⟨h1, h2⟩ := Prod.mk.injEq .. ▸ hc
  have e1 : u.1 = v.1 := Fin.ext (by omega)
  have e2 : u.2 = v.2 := Fin.ext (by omega)
  exact Prod.ext e1 e2

lemma width_backTracker (w h s : Int) (rng : Nat → Nat) :
    (backTracker w h s rng).width = w := (pres_backTracker w h s rng).1

lemma height_backTracker (w h s : Int) (rng : Nat → Nat) :
    (backTracker w h s rng).height = h := (pres_backTracker w h s rng).2.1

lemma vcoord_inB {w h : Nat} (s : Int) (rng : Nat → Nat) (v : Fin w × Fin h) :
    inB (backTracker (w : Int) (h : Int) s rng) (vcoord v).1 (vcoord v).2 := by
  rw [pres_inB (pres_backTracker (w : Int) (h : Int) s rng), inB_mkMaze]
  have h1 := v.1.isLt
  have h2 := v.2.isLt
  unfold vcoord
  refine ⟨by omega, by omega, by omega, by omega⟩

lemma dirStep_symm {M : Maze} (hsym : SymInv M) {c c' : Int × Int} {d : Nat}
    (hd : d ∈ dirList) (hc : inB M c.1 c.2) (hstep : dirStep M c c' d) :
    dirStep M c' c (OPPOSITE d) := by
  obtain ⟨hco, hbit⟩ := hstep
  obtain ⟨hnbIn, hback⟩ := hsym c.1 c.2 hc d hd hbit
  subst hco
  constructor
  · show (c.1, c.2) = ((c.1 + DX d, c.2 + DY d).1 + DX (OPPOSITE d),
      (c.1 + DX d, c.2 + DY d).2 + DY (OPPOSITE d))
    rw [dx_opp hd, dy_opp hd]
    show (c.1, c.2) = (c.1 + DX d + -DX d, c.2 + DY d + -DY d)
    rw [Prod.mk.injEq]
    constructor <;> ring
  · exact hback

lemma adj_iff_dirStep {w h : Nat} (s : Int) (rng : Nat → Nat)
    (hw : 1 ≤ w) (hh : 1 ≤ h) (u v : Fin w × Fin h) :
    (passageGraph (backTracker (w : Int) (h : Int) s rng) w h).Adj u v ↔
      ∃ d ∈ dirList, dirStep (backTracker (w : Int) (h : Int) s rng)
        (vcoord u) (vcoord v) d := by
  have hI := runInv_backTracker (w : Int) (h : Int) s rng (by omega) (by omega)
  constructor
  · rintro ⟨hne, d, hd, hor | hor⟩
    · exact ⟨d, hd, hor⟩
    · exact ⟨OPPOSITE d, opp_mem hd, dirStep_symm hI.2.1 hd (vcoord_inB s rng v) hor⟩
  · rintro ⟨d, hd, hstep⟩
    refine ⟨?_, d, hd, Or.inl hstep⟩
    intro heq
    rw [heq] at hstep
    obtain ⟨hco, _⟩ := hstep
    rw [Prod.mk.injEq] at hco
    exact vec_ne_zero hd ⟨by omega, by omega⟩

lemma reach_endpoint_inB {M : Maze} {c₁ c₂ : Int × Int} (h : Reach M c₁ c₂)
    (h1 : inB M c₁.1 c₁.2) : inB M c₂.1 c₂.2 := by
  induction h with
  | refl => exact h1
  | step d hr hd hinb hbit ih => exact hinb

lemma reach_backTracker (w h s : Int) (rng : Nat → Nat) (hw : 1 ≤ w) (hh : 1 ≤ h) :
    ∀ a b : Int, 0 ≤ b → b ≤ h - 1 → 0 ≤ a → a ≤ w - 1 →
      Reach (backTracker w h s rng) ((0, 0) : Int × Int) ((a, b) : Int × Int) := by
  intro a b hb0 hb1 ha0 ha1
  by_cases h00 : a = 0 ∧ b = 0
  · obtain ⟨rfl, rfl⟩ := h00
    exact Reach.refl _
  · have h2 : 2 ≤ w * h := by
      rcases (by omega : 1 ≤ a ∨ 1 ≤ b) with hc | hc
      · have hw2 : (2:Int) ≤ w := by omega
        have hmm : (2:Int) * 1 ≤ w * h := mul_le_mul hw2 hh (by omega) (by omega)
        omega
      · have hh2 : (2:Int) ≤ h := by omega
        have hmm : (1:Int) * 2 ≤ w * h := mul_le_mul hw hh2 (by omega) (by omega)
        omega
    have hInit := runInv_mkMaze w h s rng hw hh
    have hin0 : inB (mkMaze w h s rng) 0 0 :=
      (inB_mkMaze w h s rng 0 0).2 ⟨by omega, by omega, by omega, by omega⟩
    have hfuel : (mkMaze w h s rng).grid.length <
        visited (mkMaze w h s rng) + ((mkMaze w h s rng).grid.length + 1) := by
      omega
    have hz : cellAt (mkMaze w h s rng) a b = 0 := cellAt_mkMaze w h s rng a b
    have hnz := allVisited w h s rng hw hh h2 a b hb0 hb1 ha0 ha1
    have hres := reach_carveF ((mkMaze w h s rng).grid.length + 1) (mkMaze w h s rng) 0 0
      hInit hin0 hfuel a b ((inB_mkMaze w h s rng a b).2 ⟨hb0, hb1, ha0, ha1⟩) hz
      (by rw [← backTracker_eq]; exact hnz)
    rw [← backTracker_eq] at hres
    exact hres

lemma reach_transfer {w h : Nat} (s : Int) (rng : Nat → Nat) (hw : 1 ≤ w) (hh : 1 ≤ h) :
    ∀ c₁ c₂ : Int × Int, Reach (backTracker (w : Int) (h : Int) s rng) c₁ c₂ →
      ∀ v1 v2 : Fin w × Fin h, vcoord v1 = c₁ → vcoord v2 = c₂ →
        (passageGraph (backTracker (w : Int) (h : Int) s rng) w h).Reachable v1 v2 := by
  intro c₁ c₂ hr
  induction hr with
  | refl =>
    intro v1 v2 h1 h2
    rw [vcoord_inj (h1.trans h2.symm)]
  | @step cc' d hr hd hinb hbit ih =>
    intro v1 v2 h1 h2
    have hc'in : inB (backTracker (w : Int) (h : Int) s rng) cc'.1 cc'.2 :=
      reach_endpoint_inB hr (by rw [← h1]; exact vcoord_inB s rng v1)
    obtain ⟨hb0, hb1, ha0, ha1⟩ := (inB_backTracker (w:Int) (h:Int) s rng cc'.1 cc'.2).1 hc'in
    have hfin1 : cc'.1.toNat < w := by omega
    have hfin2 : cc'.2.toNat < h := by omega
    have hv' : vcoord ((⟨cc'.1.toNat, hfin1⟩, ⟨cc'.2.toNat, hfin2⟩) : Fin w × Fin h) = cc' := by
      unfold vcoord
      rw [Prod.ext_iff]
      constructor
      · show ((cc'.1.toNat : Int)) = cc'.1
        omega
      · show ((cc'.2.toNat : Int)) = cc'.2
        omega
    have hreach1 := ih v1 (⟨cc'.1.toNat, hfin1⟩, ⟨cc'.2.toNat, hfin2⟩) h1 hv'
    have hadj : (passageGraph (backTracker (w : Int) (h : Int) s rng) w h).Adj
        ((⟨cc'.1.toNat, hfin1⟩, ⟨cc'.2.toNat, hfin2⟩) : Fin w × Fin h) v2 := by
      rw [adj_iff_dirStep s rng hw hh]
      refine ⟨d, hd, ?_, ?_⟩
      · rw [hv', h2]
      · rw [hv']
        exact hbit
    exact hreach1.trans hadj.reachable

lemma connected_passageGraph (w h : Nat) (s : Int) (rng : Nat → Nat)
    (hw : 1 ≤ w) (hh : 1 ≤ h) :
    (passageGraph (backTracker (w : Int) (h : Int) s rng) w h).Connected := by
  rw [SimpleGraph.connected_iff]
  refine ⟨?_, ⟨((⟨0, by omega⟩, ⟨0, by omega⟩) : Fin w × Fin h)⟩⟩
  intro u v
  have r0 : ∀ z : Fin w × Fin h,
      (passageGraph (backTracker (w : Int) (h : Int) s rng) w h).Reachable
        ((⟨0, by omega⟩, ⟨0, by omega⟩) : Fin w × Fin h) z := by
    intro z
    have h1 := z.1.isLt
    have h2 := z.2.isLt
    have hz := reach_backTracker (w : Int) (h : Int) s rng (by omega) (by omega)
      ((z.1 : Int)) ((z.2 : Int)) (by omega) (by omega) (by omega) (by omega)
    exact reach_transfer s rng hw hh ((0,0) : Int × Int) (vcoord z) hz _ z
      (by unfold vcoord; simp) rfl
  exact (r0 u).symm.trans (r0 v)

/-! ### Counting edges through vertex degrees -/

lemma countP_eq_sum_range (p : Nat → Bool) : ∀ l : List Nat,
    l.countP p = ∑ k ∈ Finset.range l.length, (if p (l.getD k 0) = true then 1 else 0) := by
  intro l
  induction l with
  | nil => simp
  | cons a t iht =>
    rw [List.countP_cons, List.length_cons, Finset.sum_range_succ']
    have hgd : ∀ k : Nat, (a :: t).getD (k + 1) 0 = t.getD k 0 := fun _ => rfl
    have hgd0 : (a :: t).getD 0 0 = a := rfl
    simp only [hgd, hgd0]
    rw [← iht]

lemma sum_range_add (f : Nat → Nat) (a : Nat) : ∀ b : Nat,
    ∑ k ∈ Finset.range (a + b), f k =
      (∑ k ∈ Finset.range a, f k) + ∑ i ∈ Finset.range b, f (a + i) := by
  intro b
  induction b with
  | zero => simp
  | succ b ihb =>
    rw [show a + (b + 1) = (a + b) + 1 from rfl, Finset.sum_range_succ, ihb,
      Finset.sum_range_succ]
    omega

lemma sum_range_mul (f : Nat → Nat) (w : Nat) : ∀ hh : Nat,
    ∑ k ∈ Finset.range (hh * w), f k =
      ∑ j ∈ Finset.range hh, ∑ i ∈ Finset.range w, f (j * w + i) := by
  intro hh
  induction hh with
  | zero => simp
  | succ n ihn =>
    rw [Finset.sum_range_succ, ← ihn, Nat.succ_mul, sum_range_add]

lemma sum_vertices_eq_countP (w h : Nat) (M : Maze)
    (hW : M.width = (w : Int)) (hL : M.grid.length = w * h) (p : Nat → Bool) :
    ∑ v : Fin w × Fin h, (if p (cellAt M ((v.1 : Int)) ((v.2 : Int))) = true then 1 else 0) =
      M.grid.countP p := by
  rw [countP_eq_sum_range, hL, Fintype.sum_prod_type]
  rw [Fin.sum_univ_eq_sum_range (fun i => ∑ j : Fin h,
    (if p (cellAt M ((i : Int)) (((j : Nat) : Int))) = true then 1 else 0)) w]
  have hinner : ∀ i ∈ Finset.range w, (∑ j : Fin h,
      (if p (cellAt M ((i : Int)) (((j : Nat) : Int))) = true then 1 else 0)) =
      ∑ j ∈ Finset.range h,
        (if p (cellAt M ((i : Int)) ((j : Int))) = true then 1 else 0) :=
    fun i _ => Fin.sum_univ_eq_sum_range
      (fun j => if p (cellAt M ((i : Int)) ((j : Int))) = true then 1 else 0) h
  rw [Finset.sum_congr rfl hinner, Finset.sum_comm, Nat.mul_comm w h, sum_range_mul]
  apply Finset.sum_congr rfl
  intro j hj
  apply Finset.sum_congr rfl
  intro i hi
  rw [Finset.mem_range] at hi hj
  have hcell : cellAt M ((i : Int)) ((j : Int)) = M.grid.getD (j * w + i) 0 := by
    rw [cellAt_eq_getD]
    congr 1
    unfold Maze.index
    rw [hW]
    have hc : ((j : Int)) * (w : Int) + (i : Int) = ((j * w + i : Nat) : Int) := by
      push_cast
      ring
    omega
  rw [hcell]

lemma degree_eq_dirCount (w h : Nat) (s : Int) (rng : Nat → Nat)
    (hw : 1 ≤ w) (hh : 1 ≤ h) (v : Fin w × Fin h) :
    (passageGraph (backTracker (w : Int) (h : Int) s rng) w h).degree v =
      dirList.countP (fun d =>
        decide (hasDir (cellAt (backTracker (w : Int) (h : Int) s rng)
          ((v.1 : Int)) ((v.2 : Int))) d)) := by
  have hI := runInv_backTracker (w : Int) (h : Int) s rng (by omega) (by omega)
  have hsym := hI.2.1
  have hin : inB (backTracker (w : Int) (h : Int) s rng) ((v.1 : Int)) ((v.2 : Int)) :=
    vcoord_inB s rng v
  have hnodup : (dirList.filter (fun d =>
      decide (hasDir (cellAt (backTracker (w : Int) (h : Int) s rng)
        ((v.1 : Int)) ((v.2 : Int))) d))).Nodup := by
    apply List.Nodup.filter
    decide
  have hbnd : ∀ d ∈ (dirList.filter (fun d =>
      decide (hasDir (cellAt (backTracker (w : Int) (h : Int) s rng)
        ((v.1 : Int)) ((v.2 : Int))) d))).toFinset,
      ((v.1 : Int) + DX d).toNat < w ∧ ((v.2 : Int) + DY d).toNat < h ∧
        0 ≤ (v.1 : Int) + DX d ∧ 0 ≤ (v.2 : Int) + DY d ∧ d ∈ dirList ∧
        hasDir (cellAt (backTracker (w : Int) (h : Int) s rng)
          ((v.1 : Int)) ((v.2 : Int))) d := by
    intro d hd
    have hmem := List.mem_filter.1 (List.mem_toFinset.1 hd)
    have hdd : d ∈ dirList := hmem.1
    have hbit : hasDir (cellAt (backTracker (w : Int) (h : Int) s rng)
        ((v.1 : Int)) ((v.2 : Int))) d := of_decide_eq_true hmem.2
    have hnb := (hsym _ _ hin d hdd hbit).1
    obtain ⟨hb0, hb1, ha0, ha1⟩ :=
      (inB_backTracker (w : Int) (h : Int) s rng _ _).1 hnb
    exact ⟨by omega, by omega, ha0, hb0, hdd, hbit⟩
  rw [SimpleGraph.degree, List.countP_eq_length_filter,
    ← List.toFinset_card_of_nodup hnodup]
  symm
  refine Finset.card_bij (fun d hd =>
    ((⟨((v.1 : Int) + DX d).toNat, (hbnd d hd).1⟩ : Fin w),
      (⟨((v.2 : Int) + DY d).toNat, (hbnd d hd).2.1⟩ : Fin h))) ?_ ?_ ?_
  · intro d hd
    obtain ⟨hfw, hfh, ha0, hb0, hdd, hbit⟩ := hbnd d hd
    rw [SimpleGraph.mem_neighborFinset, adj_iff_dirStep s rng hw hh]
    refine ⟨d, hdd, ?_, hbit⟩
    unfold vcoord
    rw [Prod.mk.injEq]
    constructor
    · show ((((v.1 : Int) + DX d).toNat : Int)) = (v.1 : Int) + DX d
      omega
    · show ((((v.2 : Int) + DY d).toNat : Int)) = (v.2 : Int) + DY d
      omega
  · intro d₁ hd₁ d₂ hd₂ heq
    obtain ⟨hfw₁, hfh₁, ha0₁, hb0₁, hdd₁, _⟩ := hbnd d₁ hd₁
    obtain ⟨hfw₂, hfh₂, ha0₂, hb0₂, hdd₂, _⟩ := hbnd d₂ hd₂
    rw [Prod.mk.injEq, Fin.mk.injEq, Fin.mk.injEq] at heq
    obtain ⟨h1, h2⟩ := heq
    have hx : DX d₁ = DX d₂ := by omega
    have hy : DY d₁ = DY d₂ := by omega
    exact vec_inj hdd₁ hdd₂ hx hy
  · intro b hb
    rw [SimpleGraph.mem_neighborFinset, adj_iff_dirStep s rng hw hh] at hb
    obtain ⟨d, hdd, hco, hbit⟩ := hb
    refine ⟨d, ?_, ?_⟩
    · rw [List.mem_toFinset, List.mem_filter]
      exact ⟨hdd, decide_eq_true hbit⟩
    · unfold vcoord at hco
      rw [Prod.mk.injEq] at hco
      obtain ⟨hco1, hco2⟩ := hco
      have hlt1 := b.1.isLt
      have hlt2 := b.2.isLt
      rw [Prod.ext_iff]
      constructor
      · apply Fin.ext
        show (((v.1 : Int) + DX d).toNat) = (b.1 : Nat)
        omega
      · apply Fin.ext
        show (((v.2 : Int) + DY d).toNat) = (b.2 : Nat)
        omega

lemma bit_card_pair {w h : Nat} (M : Maze) (hsym : SymInv M)
    (hW : M.width = (w : Int)) (hH : M.height = (h : Int))
    (d : Nat) (hd : d ∈ dirList) :
    (Finset.univ.filter (fun v : Fin w × Fin h =>
        hasDir (cellAt M ((v.1 : Int)) ((v.2 : Int))) d)).card =
      (Finset.univ.filter (fun v : Fin w × Fin h =>
        hasDir (cellAt M ((v.1 : Int)) ((v.2 : Int))) (OPPOSITE d))).card := by
  have hinB : ∀ x y : Int, inB M x y ↔
      (0 ≤ y ∧ y ≤ (h : Int) - 1 ∧ 0 ≤ x ∧ x ≤ (w : Int) - 1) := by
    intro x y
    rw [inB, hW, hH]
  have hvin : ∀ v : Fin w × Fin h, inB M ((v.1 : Int)) ((v.2 : Int)) := by
    intro v
    have h1 := v.1.isLt
    have h2 := v.2.isLt
    rw [hinB]
    exact ⟨by omega, by omega, by omega, by omega⟩
  have hbnd : ∀ v ∈ Finset.univ.filter (fun v : Fin w × Fin h =>
      hasDir (cellAt M ((v.1 : Int)) ((v.2 : Int))) d),
      ((v.1 : Int) + DX d).toNat < w ∧ ((v.2 : Int) + DY d).toNat < h ∧
        0 ≤ (v.1 : Int) + DX d ∧ 0 ≤ (v.2 : Int) + DY d ∧
        hasDir (cellAt M ((v.1 : Int) + DX d) ((v.2 : Int) + DY d)) (OPPOSITE d) := by
    intro v hv
    have hbit := (Finset.mem_filter.1 hv).2
    obtain ⟨hnb, hob⟩ := hsym _ _ (hvin v) d hd hbit
    rw [hinB] at hnb
    exact ⟨by omega, by omega, by omega, by omega, hob⟩
  refine Finset.card_bij (fun v hv =>
    ((⟨((v.1 : Int) + DX d).toNat, (hbnd v hv).1⟩ : Fin w),
      (⟨((v.2 : Int) + DY d).toNat, (hbnd v hv).2.1⟩ : Fin h))) ?_ ?_ ?_
  · intro v hv
    obtain ⟨hfw, hfh, ha0, hb0, hob⟩ := hbnd v hv
    rw [Finset.mem_filter]
    refine ⟨Finset.mem_univ _, ?_⟩
    have e1 : ((((v.1 : Int) + DX d).toNat : Int)) = (v.1 : Int) + DX d := by omega
    have e2 : ((((v.2 : Int) + DY d).toNat : Int)) = (v.2 : Int) + DY d := by omega
    show hasDir (cellAt M ((((v.1 : Int) + DX d).toNat : Int))
      ((((v.2 : Int) + DY d).toNat : Int))) (OPPOSITE d)
    rw [e1, e2]
    exact hob
  · intro v₁ hv₁ v₂ hv₂ heq
    obtain ⟨_, _, ha1, hb1, _⟩ := hbnd v₁ hv₁
    obtain ⟨_, _, ha2, hb2, _⟩ := hbnd v₂ hv₂
    rw [Prod.mk.injEq, Fin.mk.injEq, Fin.mk.injEq] at heq
    obtain ⟨h1, h2⟩ := heq
    apply vcoord_inj
    unfold vcoord
    rw [Prod.mk.injEq]
    exact ⟨by omega, by omega⟩
  · intro u hu
    have hbitu := (Finset.mem_filter.1 hu).2
    obtain ⟨hnb, hob⟩ := hsym _ _ (hvin u) (OPPOSITE d) (opp_mem hd) hbitu
    rw [opp_opp hd] at hob
    rw [hinB, dx_opp hd, dy_opp hd] at hnb
    rw [dx_opp hd, dy_opp hd] at hob
    have hfw : ((u.1 : Int) + -DX d).toNat < w := by omega
    have hfh : ((u.2 : Int) + -DY d).toNat < h := by omega
    have hamem : ((⟨((u.1 : Int) + -DX d).toNat, hfw⟩ : Fin w),
        (⟨((u.2 : Int) + -DY d).toNat, hfh⟩ : Fin h)) ∈
        Finset.univ.filter (fun v : Fin w × Fin h =>
          hasDir (cellAt M ((v.1 : Int)) ((v.2 : Int))) d) := by
      rw [Finset.mem_filter]
      refine ⟨Finset.mem_univ _, ?_⟩
      have e1 : ((((u.1 : Int) + -DX d).toNat : Int)) = (u.1 : Int) + -DX d := by omega
      have e2 : ((((u.2 : Int) + -DY d).toNat : Int)) = (u.2 : Int) + -DY d := by omega
      show hasDir (cellAt M ((((u.1 : Int) + -DX d).toNat : Int))
        ((((u.2 : Int) + -DY d).toNat : Int))) d
      rw [e1, e2]
      exact hob
    refine ⟨_, hamem, ?_⟩
    rw [Prod.ext_iff]
    constructor
    · apply Fin.ext
      show ((((((u.1 : Int) + -DX d).toNat : Int)) + DX d).toNat) = (u.1 : Nat)
      omega
    · apply Fin.ext
      show ((((((u.2 : Int) + -DY d).toNat : Int)) + DY d).toNat) = (u.2 : Nat)
      omega

lemma sum_ind_eq_card {ι : Type} (s : Finset ι) (p : ι → Prop) [DecidablePred p] :
    (∑ a ∈ s, if p a then 1 else 0) = (s.filter p).card := by
  rw [Finset.sum_boole, Nat.cast_id]

lemma edge_card_eq_esCount (w h : Nat) (s : Int) (rng : Nat → Nat)
    (hw : 1 ≤ w) (hh : 1 ≤ h) :
    (passageGraph (backTracker (w : Int) (h : Int) s rng) w h).edgeFinset.card =
      esCount (backTracker (w : Int) (h : Int) s rng) := by
  have hI := runInv_backTracker (w : Int) (h : Int) s rng (by omega) (by omega)
  have hsym := hI.2.1
  have hWd := width_backTracker (w : Int) (h : Int) s rng
  have hHd := height_backTracker (w : Int) (h : Int) s rng
  have hL : (backTracker (w : Int) (h : Int) s rng).grid.length = w * h := by
    rw [grid_length_backTracker]
    have hcast : ((w : Int) * (h : Int)) = ((w * h : Nat) : Int) := by
      push_cast
      ring
    rw [hcast, Int.toNat_natCast]
  have hhs := SimpleGraph.sum_degrees_eq_twice_card_edges
    (passageGraph (backTracker (w : Int) (h : Int) s rng) w h)
  have hexp : ∀ v : Fin w × Fin h,
      (passageGraph (backTracker (w : Int) (h : Int) s rng) w h).degree v =
        (((if hasDir (cellAt (backTracker (w : Int) (h : Int) s rng)
            ((v.1 : Int)) ((v.2 : Int))) W then 1 else 0) +
          (if hasDir (cellAt (backTracker (w : Int) (h : Int) s rng)
            ((v.1 : Int)) ((v.2 : Int))) E then 1 else 0)) +
          (if hasDir (cellAt (backTracker (w : Int) (h : Int) s rng)
            ((v.1 : Int)) ((v.2 : Int))) S then 1 else 0)) +
          (if hasDir (cellAt (backTracker (w : Int) (h : Int) s rng)
            ((v.1 : Int)) ((v.2 : Int))) N then 1 else 0) := by
    intro v
    rw [degree_eq_dirCount w h s rng hw hh v]
    simp only [dirList, List.countP_cons, List.countP_nil, decide_eq_true_eq, Nat.zero_add]
  rw [Finset.sum_congr rfl (fun v _ => hexp v), Finset.sum_add_distrib,
    Finset.sum_add_distrib, Finset.sum_add_distrib] at hhs
  have hWE : (∑ v : Fin w × Fin h, if hasDir (cellAt (backTracker (w : Int) (h : Int) s rng)
      ((v.1 : Int)) ((v.2 : Int))) W then 1 else 0) =
      (∑ v : Fin w × Fin h, if hasDir (cellAt (backTracker (w : Int) (h : Int) s rng)
      ((v.1 : Int)) ((v.2 : Int))) E then 1 else 0) := by
    have hc := bit_card_pair (backTracker (w : Int) (h : Int) s rng) hsym hWd hHd W (by decide)
    have ho : OPPOSITE W = E := by decide
    rw [ho] at hc
    calc (∑ v : Fin w × Fin h, if hasDir (cellAt (backTracker (w : Int) (h : Int) s rng)
        ((v.1 : Int)) ((v.2 : Int))) W then 1 else 0) = _ := sum_ind_eq_card _ _
    _ = _ := hc
    _ = _ := (sum_ind_eq_card _ _).symm
  have hNS : (∑ v : Fin w × Fin h, if hasDir (cellAt (backTracker (w : Int) (h : Int) s rng)
      ((v.1 : Int)) ((v.2 : Int))) N then 1 else 0) =
      (∑ v : Fin w × Fin h, if hasDir (cellAt (backTracker (w : Int) (h : Int) s rng)
      ((v.1 : Int)) ((v.2 : Int))) S then 1 else 0) := by
    have hc := bit_card_pair (backTracker (w : Int) (h : Int) s rng) hsym hWd hHd N (by decide)
    have ho : OPPOSITE N = S := by decide
    rw [ho] at hc
    calc (∑ v : Fin w × Fin h, if hasDir (cellAt (backTracker (w : Int) (h : Int) s rng)
        ((v.1 : Int)) ((v.2 : Int))) N then 1 else 0) = _ := sum_ind_eq_card _ _
    _ = _ := hc
    _ = _ := (sum_ind_eq_card _ _).symm
  have hEc := sum_vertices_eq_countP w h (backTracker (w : Int) (h : Int) s rng) hWd hL
    (fun c => decide (hasDir c E))
  simp only [decide_eq_true_eq] at hEc
  have hSc := sum_vertices_eq_countP w h (backTracker (w : Int) (h : Int) s rng) hWd hL
    (fun c => decide (hasDir c S))
  simp only [decide_eq_true_eq] at hSc
  rw [hWE, hNS, hEc, hSc] at hhs
  unfold esCount
  omega

lemma cell_ne_zero_of_hasDir {c d : Nat} (h : hasDir c d) : c ≠ 0 := by
  intro h0
  apply h
  rw [h0]
  exact Nat.zero_and d

lemma acyclic_passageGraph (w h : Nat) (s : Int) (rng : Nat → Nat)
    (hw : 1 ≤ w) (hh : 1 ≤ h) :
    (passageGraph (backTracker (w : Int) (h : Int) s rng) w h).IsAcyclic := by
  have hI := runInv_backTracker (w : Int) (h : Int) s rng (by omega) (by omega)
  obtain ⟨hwf, hsym, hlog, hup⟩ := hI
  apply acyclic_of_rank _
    (fun v : Fin w × Fin h => posIn (vcoord v) (backTracker (w : Int) (h : Int) s rng).log)
  · intro u v hadj
    rw [adj_iff_dirStep s rng hw hh] at hadj
    obtain ⟨d, hd, hco, hbit⟩ := hadj
    intro heq
    have huin := vcoord_inB s rng u
    have hvin := vcoord_inB s rng v
    have hu0 : cellAt (backTracker (w : Int) (h : Int) s rng)
        (vcoord u).1 (vcoord u).2 ≠ 0 := cell_ne_zero_of_hasDir hbit
    have hvbit := (hsym _ _ huin d hd hbit).2
    have hv0 : cellAt (backTracker (w : Int) (h : Int) s rng)
        (vcoord v).1 (vcoord v).2 ≠ 0 := by
      have : cellAt (backTracker (w : Int) (h : Int) s rng)
          ((vcoord u).1 + DX d) ((vcoord u).2 + DY d) ≠ 0 :=
        cell_ne_zero_of_hasDir hvbit
      rw [hco]
      exact this
    have humem : vcoord u ∈ (backTracker (w : Int) (h : Int) s rng).log :=
      (hlog.2.1 _ _ huin).1 hu0
    have hvmem : vcoord v ∈ (backTracker (w : Int) (h : Int) s rng).log :=
      (hlog.2.1 _ _ hvin).1 hv0
    have hcc : vcoord u = vcoord v := posIn_inj hlog.1 humem hvmem heq
    rw [← hcc] at hco
    rw [Prod.ext_iff] at hco
    exact vec_ne_zero hd ⟨by omega, by omega⟩
  · intro v u₁ u₂ ha₁ ha₂ ht₁ ht₂
    rw [adj_iff_dirStep s rng hw hh] at ha₁ ha₂
    obtain ⟨d₁, hd₁, hco₁, hb₁⟩ := ha₁
    obtain ⟨d₂, hd₂, hco₂, hb₂⟩ := ha₂
    rw [hco₁] at ht₁
    rw [hco₂] at ht₂
    have hd12 := hup (vcoord v).1 (vcoord v).2 (vcoord_inB s rng v) d₁ hd₁ d₂ hd₂ hb₁ hb₂ ht₁ ht₂
    apply vcoord_inj
    rw [hco₁, hco₂, hd12]

/-! ### Sufficient fuel: the fuel-exhaustion branch is dead -/

lemma tryDir_fuel_eq (fuel : Nat)
    (ih : ∀ m x y, RunInv m → inB m x y → m.grid.length < visited m + fuel →
      carveF (fuel + 1) m x y = carveF fuel m x y)
    {m : Maze} {x y : Int} {d : Nat} (hd : d ∈ dirList)
    (hI : RunInv m) (hin : inB m x y)
    (hfuel : m.grid.length < visited m + (fuel + 1)) :
    tryDir (carveF (fuel + 1)) x y d m = tryDir (carveF fuel) x y d m := by
  rw [tryDir_eq, tryDir_eq]
  by_cases hc : 0 ≤ y + DY d ∧ y + DY d ≤ m.height - 1 ∧ 0 ≤ x + DX d ∧ x + DX d ≤ m.width - 1 ∧
      cellAt m (x + DX d) (y + DY d) = 0
  · rw [if_pos hc, if_pos hc]
    obtain ⟨h1, h2, h3, h4, h0⟩ := hc
    have hnb : inB m (x + DX d) (y + DY d) := ⟨h1, h2, h3, h4⟩
    have hI2 := runInv_carveMark hI hin hd hnb h0
    have hfuel2 : (carveMark m x y d).grid.length < visited (carveMark m x y d) + fuel := by
      have hv := (counts_carveMark hI.1 hI.2.1 hin hd hnb h0).1
      have hlen : (carveMark m x y d).grid.length = m.grid.length :=
        (pres_carveMark m x y d).2.2.2.1
      have hle : (if cellAt m x y = 0 then (0:Nat) else 1) ≤ 1 := by
        by_cases hcc : cellAt m x y = 0 <;> simp [hcc]
      omega
    exact ih _ _ _ hI2 hnb hfuel2
  · rw [if_neg hc, if_neg hc]

lemma carveF_succ_agrees : ∀ (fuel : Nat) (m : Maze) (x y : Int), RunInv m → inB m x y →
    m.grid.length < visited m + fuel → carveF (fuel + 1) m x y = carveF fuel m x y := by
  intro fuel
  induction fuel with
  | zero =>
    intro m x y _ _ hfuel
    have := visited_le_length m
    omega
  | succ fuel ih =>
    intro m x y hI hin hfuel
    rw [carveF_succ (fuel + 1) m x y, carveF_succ fuel m x y]
    set A := shuffleDirs { m with calls := m.calls + 1 } with hA
    have hI0 : RunInv A.1 := by
      rw [hA, shuffleDirs_fst]
      exact hI
    have hin0 : inB A.1 x y := by
      rw [hA, shuffleDirs_fst]
      exact hin
    have hlen0 : A.1.grid.length = m.grid.length := by
      rw [hA, shuffleDirs_fst]
    have hvis0 : visited A.1 = visited m := by
      rw [hA, shuffleDirs_fst]
      rfl
    have hmem : ∀ k : Nat, k < 4 → A.2.getD k 0 ∈ dirList := by
      intro k hk
      rw [hA]
      exact shuffleDirs_getD_mem { m with calls := m.calls + 1 } hk
    have e0 : tryDir (carveF (fuel + 1)) x y (A.2.getD 0 0) A.1 =
        tryDir (carveF fuel) x y (A.2.getD 0 0) A.1 :=
      tryDir_fuel_eq fuel ih (hmem 0 (by omega)) hI0 hin0 (by omega)
    rw [e0]
    set M1 := tryDir (carveF fuel) x y (A.2.getD 0 0) A.1 with hM1
    have hpres1 : Pres A.1 M1 := by
      rw [hM1]
      exact pres_tryDir (fun a b c => pres_carveF fuel a b c) x y (A.2.getD 0 0) A.1
    have hI1 : RunInv M1 := by
      rw [hM1]
      exact runInv_tryDir (runInv_carveF fuel) (hmem 0 (by omega)) hI0 hin0
    have hin1 : inB M1 x y := (pres_inB hpres1 x y).2 hin0
    have hlen1 : M1.grid.length = A.1.grid.length := hpres1.2.2.2.1
    have hvis1 : visited A.1 ≤ visited M1 := visited_mono hpres1
    have e1 : tryDir (carveF (fuel + 1)) x y (A.2.getD 1 0) M1 =
        tryDir (carveF fuel) x y (A.2.getD 1 0) M1 :=
      tryDir_fuel_eq fuel ih (hmem 1 (by omega)) hI1 hin1 (by omega)
    rw [e1]
    set M2 := tryDir (carveF fuel) x y (A.2.getD 1 0) M1 with hM2
    have hpres2 : Pres M1 M2 := by
      rw [hM2]
      exact pres_tryDir (fun a b c => pres_carveF fuel a b c) x y (A.2.getD 1 0) M1
    have hI2 : RunInv M2 := by
      rw [hM2]
      exact runInv_tryDir (runInv_carveF fuel) (hmem 1 (by omega)) hI1 hin1
    have hin2 : inB M2 x y := (pres_inB hpres2 x y).2 hin1
    have hlen2 : M2.grid.length = M1.grid.length := hpres2.2.2.2.1
    have hvis2 : visited M1 ≤ visited M2 := visited_mono hpres2
    have e2 : tryDir (carveF (fuel + 1)) x y (A.2.getD 2 0) M2 =
        tryDir (carveF fuel) x y (A.2.getD 2 0) M2 :=
      tryDir_fuel_eq fuel ih (hmem 2 (by omega)) hI2 hin2 (by omega)
    rw [e2]
    set M3 := tryDir (carveF fuel) x y (A.2.getD 2 0) M2 with hM3
    have hpres3 : Pres M2 M3 := by
      rw [hM3]
      exact pres_tryDir (fun a b c => pres_carveF fuel a b c) x y (A.2.getD 2 0) M2
    have hI3 : RunInv M3 := by
      rw [hM3]
      exact runInv_tryDir (runInv_carveF fuel) (hmem 2 (by omega)) hI2 hin2
    have hin3 : inB M3 x y := (pres_inB hpres3 x y).2 hin2
    have hlen3 : M3.grid.length = M2.grid.length := hpres3.2.2.2.1
    have hvis3 : visited M2 ≤ visited M3 := visited_mono hpres3
    have e3 : tryDir (carveF (fuel + 1)) x y (A.2.getD 3 0) M3 =
        tryDir (carveF fuel) x y (A.2.getD 3 0) M3 :=
      tryDir_fuel_eq fuel ih (hmem 3 (by omega)) hI3 hin3 (by omega)
    rw [e3]

lemma carveF_add_agrees (m : Maze) (x y : Int) (hI : RunInv m) (hin : inB m x y)
    (f : Nat) (hf : m.grid.length < visited m + f) :
    ∀ j : Nat, carveF (f + j) m x y = carveF f m x y := by
  intro j
  induction j with
  | zero => rfl
  | succ j ihj =>
    have hstep : carveF (f + j + 1) m x y = carveF (f + j) m x y :=
      carveF_succ_agrees (f + j) m x y hI hin (by omega)
    calc carveF (f + (j + 1)) m x y = carveF (f + j + 1) m x y := rfl
    _ = carveF (f + j) m x y := hstep
    _ = carveF f m x y := ihj

/-- Any two sufficient fuel values give the same result: the model does not
depend on the fuel, so it coincides with the unbounded C++ recursion. -/
lemma carveF_fuel_irrelevant (m : Maze) (x y : Int) (hI : RunInv m) (hin : inB m x y)
    (f₁ f₂ : Nat) (h₁ : m.grid.length < visited m + f₁)
    (h₂ : m.grid.length < visited m + f₂) :
    carveF f₁ m x y = carveF f₂ m x y := by
  rcases le_total f₁ f₂ with hle | hle
  · have hh := carveF_add_agrees m x y hI hin f₁ h₁ (f₂ - f₁)
    rw [show f₁ + (f₂ - f₁) = f₂ from by omega] at hh
    exact hh.symm
  · have hh := carveF_add_agrees m x y hI hin f₂ h₂ (f₁ - f₂)
    rw [show f₂ + (f₁ - f₂) = f₁ from by omega] at hh
    exact hh

/-! ### The 1-by-1 maze -/

lemma tryDir_out_1_1 {recur : Maze → Int → Int → Maze} {m : Maze}
    (hW : m.width = 1) (hH : m.height = 1) {d : Nat} (hd : d ∈ dirList) :
    tryDir recur 0 0 d m = m := by
  rw [tryDir_eq]
  apply if_neg
  rintro ⟨h1, h2, h3, h4, _⟩
  rw [hH] at h2
  rw [hW] at h4
  exact vec_ne_zero hd ⟨by omega, by omega⟩

lemma carveF_1_1 {m : Maze} (hW : m.width = 1) (hH : m.height = 1) (fuel : Nat) :
    carveF (fuel + 1) m 0 0 = (shuffleDirs { m with calls := m.calls + 1 }).1 := by
  rw [carveF_succ]
  set A := shuffleDirs { m with calls := m.calls + 1 } with hA
  have hW1 : A.1.width = 1 := by
    rw [hA, shuffleDirs_fst]
    exact hW
  have hH1 : A.1.height = 1 := by
    rw [hA, shuffleDirs_fst]
    exact hH
  have hmem : ∀ k : Nat, k < 4 → A.2.getD k 0 ∈ dirList := by
    intro k hk
    rw [hA]
    exact shuffleDirs_getD_mem { m with calls := m.calls + 1 } hk
  rw [tryDir_out_1_1 hW1 hH1 (hmem 0 (by omega)), tryDir_out_1_1 hW1 hH1 (hmem 1 (by omega)),
    tryDir_out_1_1 hW1 hH1 (hmem 2 (by omega)), tryDir_out_1_1 hW1 hH1 (hmem 3 (by omega))]

lemma backTracker_1_1_eq (s : Int) (rng : Nat → Nat) :
    backTracker 1 1 s rng =
      { width := 1, height := 1, seed := s, grid := [0],
        rng := rng, pos := 4, calls := 1, log := [] } := by
  show carveF ((mkMaze 1 1 s rng).grid.length + 1) (mkMaze 1 1 s rng) 0 0 = _
  rw [carveF_1_1 rfl rfl, shuffleDirs_fst]
  rfl

lemma cellAt_congr {m m' : Maze} (hg : m.grid = m'.grid) (hw : m.width = m'.width)
    (x y : Int) : cellAt m x y = cellAt m' x y := by
  unfold cellAt Maze.index
  rw [hg, hw]

lemma rowLine_congr {m m' : Maze} (hg : m.grid = m'.grid) (hw : m.width = m'.width)
    (j : Int) : rowLine m j = rowLine m' j := by
  unfold rowLine rowChars southChar eastChar
  rw [hw]
  simp only [cellAt_congr hg hw]

lemma draw_backTracker_1_1 (s : Int) (rng : Nat → Nat) :
    draw (backTracker 1 1 s rng) =
      [" _", "|_|", " width: 1, height: 1, seed: " ++ toString s] := by
  rw [backTracker_1_1_eq]
  have h0 : topLine { width := 1, height := 1, seed := s, grid := [0], rng := rng, pos := 4, calls := 1, log := [] } = " _" := by rfl
  have h1 : rowLine { width := 1, height := 1, seed := s, grid := [0], rng := rng, pos := 4, calls := 1, log := [] } 0 = "|_|" := by
    rw [@rowLine_congr
      { width := 1, height := 1, seed := s, grid := [0], rng := rng, pos := 4, calls := 1, log := [] }
      { width := 1, height := 1, seed := 0, grid := [0], rng := fun _ => 0, pos := 4, calls := 1, log := [] }
      rfl rfl 0]
    rfl
  have hpre : (" width: " ++ toString (1 : Int) ++ ", height: " ++ toString (1 : Int) ++
      ", seed: ") = " width: 1, height: 1, seed: " := by decide
  have hmeta : metaLine { width := 1, height := 1, seed := s, grid := [0], rng := rng, pos := 4, calls := 1, log := [] } =
      " width: 1, height: 1, seed: " ++ toString s := by
    show (" width: " ++ toString (1 : Int) ++ ", height: " ++ toString (1 : Int) ++
      ", seed: ") ++ toString s = _
    rw [hpre]
  have hd : draw { width := 1, height := 1, seed := s, grid := [0], rng := rng, pos := 4, calls := 1, log := [] } =
      [topLine { width := 1, height := 1, seed := s, grid := [0], rng := rng, pos := 4, calls := 1, log := [] },
       rowLine { width := 1, height := 1, seed := s, grid := [0], rng := rng, pos := 4, calls := 1, log := [] } 0,
       metaLine { width := 1, height := 1, seed := s, grid := [0], rng := rng, pos := 4, calls := 1, log := [] }] := rfl
  rw [hd, h0, h1, hmeta]

/-! ### Indexing the two characters each cell contributes to its row -/

lemma flatMap_pair_getD {α : Type} (c : α) :
    ∀ (k : Nat) (f g : Nat → α) (n : Nat), k < n →
      ((List.range n).flatMap (fun i => [f i, g i])).getD (2 * k) c = f k ∧
      ((List.range n).flatMap (fun i => [f i, g i])).getD (2 * k + 1) c = g k := by
  intro k
  induction k with
  | zero =>
    intro f g n hn
    obtain ⟨m, rfl⟩ : ∃ m, n = m + 1 := ⟨n - 1, by omega⟩
    rw [List.range_succ_eq_map, List.flatMap_cons]
    constructor
    · rw [Nat.mul_zero]
      rfl
    · rw [Nat.mul_zero]
      rfl
  | succ k ih =>
    intro f g n hn
    obtain ⟨m, rfl⟩ : ∃ m, n = m + 1 := ⟨n - 1, by omega⟩
    rw [List.range_succ_eq_map, List.flatMap_cons, List.flatMap_map]
    have hk : k < m := by omega
    have hih := ih (fun i => f (i + 1)) (fun i => g (i + 1)) m hk
    constructor
    · rw [show 2 * (k + 1) = 2 * k + 1 + 1 from by ring]
      show ((List.range m).flatMap (fun a => [f (a + 1), g (a + 1)])).getD (2 * k) c = f (k + 1)
      exact hih.1
    · rw [show 2 * (k + 1) + 1 = 2 * k + 1 + 1 + 1 from by ring]
      show ((List.range m).flatMap (fun a => [f (a + 1), g (a + 1)])).getD (2 * k + 1) c =
        g (k + 1)
      exact hih.2

lemma rowChars_getD (m : Maze) (j : Int) (i : Nat) (hi : i < m.width.toNat) :
    (rowChars m j).getD (2 * i + 1) ' ' = southChar m (Int.ofNat i) j ∧
    (rowChars m j).getD (2 * i + 2) ' ' = eastChar m (Int.ofNat i) j := by
  unfold rowChars
  have hp := flatMap_pair_getD ' ' i (fun i => southChar m (Int.ofNat i) j)
    (fun i => eastChar m (Int.ofNat i) j) m.width.toNat hi
  constructor
  · show ((List.range m.width.toNat).flatMap
      (fun i => [southChar m (Int.ofNat i) j, eastChar m (Int.ofNat i) j])).getD (2 * i) ' ' = _
    exact hp.1
  · show ((List.range m.width.toNat).flatMap
      (fun i => [southChar m (Int.ofNat i) j, eastChar m (Int.ofNat i) j])).getD
        (2 * i + 1) ' ' = _
    exact hp.2

/-! ### The shuffle as the spec words it -/

/-- Modelled from the spec: the shuffle as the specification describes it,
"for index i from 0 to 2, draw r uniformly from [i, 3], swap the elements at
i and r" — three iterations, hence three random draws. -/
def shuffleSpec3 (m : Maze) : Maze × List Nat :=
  shuffleStep 2 (shuffleStep 1 (shuffleStep 0 (m, dirList)))

lemma set_getD_self : ∀ (l : List Nat) (i : Nat), l.set i (l.getD i 0) = l := by
  intro l
  induction l with
  | nil => intro i; rfl
  | cons a l ih =>
    intro i
    cases i with
    | zero => rfl
    | succ i =>
      show a :: l.set i (l.getD i 0) = a :: l
      rw [ih i]

lemma listSwap_self (l : List Nat) (i : Nat) : listSwap l i i = l := by
  unfold listSwap
  rw [List.set_set, set_getD_self]

lemma shuffleDirs_eq_spec3_step (m : Maze) :
    shuffleDirs m = ((randM (shuffleSpec3 m).1).2, (shuffleSpec3 m).2) := by
  show shuffleStep 3 (shuffleSpec3 m) = _
  unfold shuffleStep
  rw [show 4 - 3 = 1 from rfl, Nat.mod_one, Nat.add_zero, listSwap_self]

/-! ### The specification claims -/

/-- C1: for every valid width ≥ 1, height ≥ 1 and every seed and random
stream, after the carver run started by the `BackTracker` constructor
(`create_passage_from(0,0)`) returns, the passage graph — cells as nodes,
open bit-pairs as edges — is connected, has exactly `width*height - 1`
edges, and has no cycles: it is a spanning tree of the grid. -/
theorem C1_spanning_tree (w h : Nat) (s : Int) (rng : Nat → Nat)
    (hw : 1 ≤ w) (hh : 1 ≤ h) :
    (passageGraph (backTracker (w : Int) (h : Int) s rng) w h).Connected ∧
    (passageGraph (backTracker (w : Int) (h : Int) s rng) w h).edgeFinset.card = w * h - 1 ∧
    (passageGraph (backTracker (w : Int) (h : Int) s rng) w h).IsAcyclic := by
  refine ⟨connected_passageGraph w h s rng hw hh, ?_, acyclic_passageGraph w h s rng hw hh⟩
  rw [edge_card_eq_esCount w h s rng hw hh]
  by_cases h2 : 2 ≤ w * h
  · have h2i : (2 : Int) ≤ (w : Int) * (h : Int) := by
      have hc := (Nat.cast_le (α := Int)).2 h2
      push_cast at hc
      exact hc
    have hes := esCount_backTracker (w : Int) (h : Int) s rng (by omega) (by omega) h2i
    have htn : ((w : Int) * (h : Int)).toNat = w * h := by
      rw [show ((w : Int) * (h : Int)) = ((w * h : Nat) : Int) from by push_cast; ring,
        Int.toNat_natCast]
    omega
  · have hwle : w ≤ w * h := by
      calc w = w * 1 := (Nat.mul_one w).symm
      _ ≤ w * h := Nat.mul_le_mul_left w hh
    have hhle : h ≤ w * h := by
      calc h = 1 * h := (Nat.one_mul h).symm
      _ ≤ w * h := Nat.mul_le_mul_right h hw
    have hw1 : w = 1 := by omega
    have hh1 : h = 1 := by omega
    subst hw1
    subst hh1
    rw [Nat.cast_one, backTracker_1_1_eq]
    rfl

/-- Witness for C1 at width 2, height 2, seed 0, identity stream. -/
theorem C1_spanning_tree_witness :
    (passageGraph (backTracker ((2 : Nat) : Int) ((2 : Nat) : Int) 0 (fun k => k)) 2 2).Connected ∧
    (passageGraph (backTracker ((2 : Nat) : Int) ((2 : Nat) : Int) 0 (fun k => k)) 2 2).edgeFinset.card =
      2 * 2 - 1 ∧
    (passageGraph (backTracker ((2 : Nat) : Int) ((2 : Nat) : Int) 0 (fun k => k)) 2 2).IsAcyclic :=
  C1_spanning_tree 2 2 0 (fun k => k) (by omega) (by omega)

/-- C2 (counterexample): the shuffle of `create_passage_from` consumes four
random draws, not three: starting from a fresh maze (cursor 0) the cursor
stands at 4 after the shuffle. -/
theorem C2_three_draw_counterexample :
    (shuffleDirs (mkMaze 2 2 0 (fun k => k))).1.pos = 4 ∧
    (shuffleDirs (mkMaze 2 2 0 (fun k => k))).1.pos ≠ 3 := by decide

/-- C2 (amended): the shuffle loop runs for i = 0, 1, 2, 3, drawing
`r = i + rand() % (4 - i)` and swapping positions i and r each time, so it
consumes exactly four random draws; the resulting permutation agrees with
the three-iteration Fisher–Yates shuffle the spec describes (the fourth
iteration always swaps index 3 with itself), but the fourth draw still
advances the random stream. -/
theorem C2_shuffle_four_draws (m : Maze) :
    (shuffleDirs m).2 = (shuffleSpec3 m).2 ∧
    (shuffleDirs m).1 = { (shuffleSpec3 m).1 with pos := (shuffleSpec3 m).1.pos + 1 } ∧
    (shuffleDirs m).1.pos = m.pos + 4 := by
  rw [shuffleDirs_eq_spec3_step]
  refine ⟨rfl, rfl, ?_⟩
  have h3 : (shuffleSpec3 m).1.pos = m.pos + 1 + 1 + 1 := rfl
  show (shuffleSpec3 m).1.pos + 1 = m.pos + 4
  omega

/-- C3: two complete runs with identical (width, height, seed) inputs and
the same random-stream algorithm produce identical cell-state arrays and
identical rendered output. -/
theorem C3_determinism (w₁ h₁ s₁ w₂ h₂ s₂ : Int) (rng₁ rng₂ : Nat → Nat)
    (hw : w₁ = w₂) (hh : h₁ = h₂) (hs : s₁ = s₂) (hr : rng₁ = rng₂) :
    (backTracker w₁ h₁ s₁ rng₁).grid = (backTracker w₂ h₂ s₂ rng₂).grid ∧
    draw (backTracker w₁ h₁ s₁ rng₁) = draw (backTracker w₂ h₂ s₂ rng₂) := by
  subst hw
  subst hh
  subst hs
  subst hr
  exact ⟨rfl, rfl⟩

/-- Witness for C3 at width 2, height 2, seed 7, identity stream. -/
theorem C3_determinism_witness :
    (backTracker 2 2 7 (fun k => k)).grid = (backTracker 2 2 7 (fun k => k)).grid ∧
    draw (backTracker 2 2 7 (fun k => k)) = draw (backTracker 2 2 7 (fun k => k)) :=
  C3_determinism 2 2 7 2 2 7 (fun k => k) (fun k => k) rfl rfl rfl rfl

/-- C4: after carving, an in-bounds cell has the passage bit for direction d
set exactly when its neighbor in direction d exists (is in bounds) and
carries the opposite-direction bit (North↔South, East↔West). -/
theorem C4_passage_symmetry (w h s : Int) (rng : Nat → Nat) (hw : 1 ≤ w) (hh : 1 ≤ h)
    (x y : Int) (hin : inB (backTracker w h s rng) x y) (d : Nat) (hd : d ∈ dirList) :
    hasDir (cellAt (backTracker w h s rng) x y) d ↔
      (inB (backTracker w h s rng) (x + DX d) (y + DY d) ∧
        hasDir (cellAt (backTracker w h s rng) (x + DX d) (y + DY d)) (OPPOSITE d)) := by
  have hsym := (runInv_backTracker w h s rng hw hh).2.1
  constructor
  · intro hb
    exact hsym x y hin d hd hb
  · rintro ⟨hnb, hob⟩
    have hback := (hsym _ _ hnb (OPPOSITE d) (opp_mem hd) hob).2
    rw [opp_opp hd] at hback
    have hx : x + DX d + DX (OPPOSITE d) = x := by
      rw [dx_opp hd]
      ring
    have hy : y + DY d + DY (OPPOSITE d) = y := by
      rw [dy_opp hd]
      ring
    rw [hx, hy] at hback
    exact hback

/-- Witness for C4 at width 2, height 2, seed 0, identity stream, cell
(0, 0), direction East. -/
theorem C4_passage_symmetry_witness :
    hasDir (cellAt (backTracker 2 2 0 (fun k => k)) 0 0) E ↔
      (inB (backTracker 2 2 0 (fun k => k)) (0 + DX E) (0 + DY E) ∧
        hasDir (cellAt (backTracker 2 2 0 (fun k => k)) (0 + DX E) (0 + DY E)) (OPPOSITE E)) :=
  C4_passage_symmetry 2 2 0 (fun k => k) (by omega) (by omega) 0 0
    (by rw [inB_backTracker]; omega) E (by decide)

/-- C5 (counterexample): reading the out-of-bounds coordinate (2, 0) on a
carved 2×2 maze does not fail — it silently reads the in-bounds cell (0, 1)
(the index wraps to the next row), whose state is nonzero. -/
theorem C5_outofbounds_counterexample :
    cellAt (backTracker 2 2 0 (fun k => k)) 2 0 =
      cellAt (backTracker 2 2 0 (fun k => k)) 0 1 ∧
    cellAt (backTracker 2 2 0 (fun k => k)) 0 1 ≠ 0 := by decide

/-- C5 (amended): the grid accessors perform no bounds check — `Maze::index`
returns `y * width + x` unconditionally, so an x coordinate one row's width
out of range wraps to a different, in-bounds cell of the adjacent row, and
every read goes through this unchecked index. -/
theorem C5_index_wraps (m : Maze) (x y : Int) :
    Maze.index m (x - m.width) (y + 1) = Maze.index m x y ∧
    cellAt m (x - m.width) (y + 1) = cellAt m x y := by
  have hidx : Maze.index m (x - m.width) (y + 1) = Maze.index m x y := by
    unfold Maze.index
    ring
  refine ⟨hidx, ?_⟩
  unfold cellAt
  rw [hidx]

/-- C6 (counterexample): constructing a maze with non-positive dimensions is
not rejected: width 0 (and height -2) are stored as given and the cell array
is simply empty. -/
theorem C6_nonpositive_counterexample :
    (mkMaze 0 5 3 (fun k => k)).width = 0 ∧
    (mkMaze 3 (-2) 0 (fun k => k)).height = -2 ∧
    (mkMaze 3 (-2) 0 (fun k => k)).grid = [] := by
  exact ⟨rfl, rfl, rfl⟩

/-- C6 (amended): the `Maze` constructor performs no dimension check: it
stores any width and height unchanged, including non-positive values, and
allocates `max(width*height, 0)` zeroed cells; there is no InvalidDimension
error path anywhere in the program. -/
theorem C6_constructor_unchecked (w h s : Int) (rng : Nat → Nat) :
    (mkMaze w h s rng).width = w ∧ (mkMaze w h s rng).height = h ∧
    (mkMaze w h s rng).grid.length = (w * h).toNat := by
  refine ⟨rfl, rfl, ?_⟩
  simp [mkMaze]

/-- C7 (counterexample): at width 1, height 1, seed 42 the rendered
metadata line is " width: 1, height: 1, seed: 42" — with a leading space,
from `cout << " width: "` — not the claimed "width: 1, height: 1, seed: 42". -/
theorem C7_metadata_counterexample :
    draw (backTracker 1 1 42 (fun k => k)) =
      [" _", "|_|", " width: 1, height: 1, seed: 42"] ∧
    (draw (backTracker 1 1 42 (fun k => k))).getD 2 "" ≠
      "width: 1, height: 1, seed: 42" := by decide

/-- C7 (amended): for width 1, height 1 and any seed, carving enters
`create_passage_from` exactly once (at cell (0,0)), marks no cell and opens
no passage (the single cell's state stays 0), and the rendered diagram is
exactly the top line " _", the body line "|_|" and the metadata line
" width: 1, height: 1, seed: <S>" (note the leading space). -/
theorem C7_render_1_1 (s : Int) (rng : Nat → Nat) :
    cellAt (backTracker 1 1 s rng) 0 0 = 0 ∧
    (backTracker 1 1 s rng).grid = [0] ∧
    (backTracker 1 1 s rng).calls = 1 ∧
    (backTracker 1 1 s rng).log = [] ∧
    draw (backTracker 1 1 s rng) =
      [" _", "|_|", " width: 1, height: 1, seed: " ++ toString s] := by
  refine ⟨?_, ?_, ?_, ?_, draw_backTracker_1_1 s rng⟩
  all_goals rw [backTracker_1_1_eq]
  all_goals rfl

/-- C8: in row j of the rendered diagram, the second character contributed
by cell i (at position 2i+2, after the leading wall) is: when the cell has
an open East passage, a space if the cell or its East neighbor has an open
South passage and an underscore otherwise; when the cell has no East
passage, the wall character. -/
theorem C8_east_char_rule (m : Maze) (j : Int) (i : Nat) (hi : i < m.width.toNat) :
    (rowChars m j).getD (2 * i + 2) ' ' =
      if cellAt m (Int.ofNat i) j &&& E ≠ 0 then
        (if (cellAt m (Int.ofNat i) j ||| cellAt m (Int.ofNat i + 1) j) &&& S ≠ 0 then ' '
         else '_')
      else '|' := by
  rw [(rowChars_getD m j i hi).2]
  rfl

/-- Witness for C8 on the carved 2×2 maze with seed 0 and identity stream,
row 0, cell 0. -/
theorem C8_east_char_rule_witness :
    (rowChars (backTracker 2 2 0 (fun k => k)) 0).getD (2 * 0 + 2) ' ' =
      if cellAt (backTracker 2 2 0 (fun k => k)) (Int.ofNat 0) 0 &&& E ≠ 0 then
        (if (cellAt (backTracker 2 2 0 (fun k => k)) (Int.ofNat 0) 0 |||
            cellAt (backTracker 2 2 0 (fun k => k)) (Int.ofNat 0 + 1) 0) &&& S ≠ 0 then ' '
         else '_')
      else '|' :=
  C8_east_char_rule (backTracker 2 2 0 (fun k => k)) 0 0 (by decide)

/-- C9: for every width ≥ 1, height ≥ 1 and every seed and random stream,
the carving procedure terminates — any fuel beyond the number of cells gives
the same final state as the model's entry point — and it enters
`create_passage_from` at most `width*height` times in total. -/
theorem C9_recursion_bound (w h s : Int) (rng : Nat → Nat) (hw : 1 ≤ w) (hh : 1 ≤ h) :
    (backTracker w h s rng).calls ≤ (w * h).toNat ∧
    ∀ fuel : Nat, (mkMaze w h s rng).grid.length < fuel →
      carveF fuel (mkMaze w h s rng) 0 0 = backTracker w h s rng := by
  refine ⟨calls_backTracker w h s rng hw hh, ?_⟩
  intro fuel hf
  have hI := runInv_mkMaze w h s rng hw hh
  have hin : inB (mkMaze w h s rng) 0 0 :=
    (inB_mkMaze w h s rng 0 0).2 ⟨by omega, by omega, by omega, by omega⟩
  show carveF fuel (mkMaze w h s rng) 0 0 =
    carveF ((mkMaze w h s rng).grid.length + 1) (mkMaze w h s rng) 0 0
  exact carveF_fuel_irrelevant (mkMaze w h s rng) 0 0 hI hin fuel
    ((mkMaze w h s rng).grid.length + 1) (by omega) (by omega)

/-- Witness for C9 at width 2, height 2, seed 0, identity stream, fuel 5. -/
theorem C9_recursion_bound_witness :
    (backTracker 2 2 0 (fun k => k)).calls ≤ ((2 * 2 : Int)).toNat ∧
    carveF 5 (mkMaze 2 2 0 (fun k => k)) 0 0 = backTracker 2 2 0 (fun k => k) :=
  ⟨(C9_recursion_bound 2 2 0 (fun k => k) (by omega) (by omega)).1,
    (C9_recursion_bound 2 2 0 (fun k => k) (by omega) (by omega)).2 5 (by decide)⟩

/-- C10: after carving, no in-bounds cell has an outward-facing passage bit:
East is clear on the rightmost column, West on the leftmost column, North on
the top row and South on the bottom row; consequently whenever the renderer
needs the East-neighbor cell (the read `_grid[index(i+1, j)]` guarded by the
East bit), the flattened index lies inside the cell array. -/
theorem C10_border_bits (w h s : Int) (rng : Nat → Nat) (hw : 1 ≤ w) (hh : 1 ≤ h)
    (x y : Int) (hin : inB (backTracker w h s rng) x y) :
    ((x = w - 1 → ¬hasDir (cellAt (backTracker w h s rng) x y) E) ∧
     (x = 0 → ¬hasDir (cellAt (backTracker w h s rng) x y) W) ∧
     (y = 0 → ¬hasDir (cellAt (backTracker w h s rng) x y) N) ∧
     (y = h - 1 → ¬hasDir (cellAt (backTracker w h s rng) x y) S)) ∧
    (hasDir (cellAt (backTracker w h s rng) x y) E →
      ((backTracker w h s rng).index (x + 1) y).toNat <
        (backTracker w h s rng).grid.length) := by
  have hI := runInv_backTracker w h s rng hw hh
  have hsym := hI.2.1
  have hgen : ∀ d ∈ dirList, hasDir (cellAt (backTracker w h s rng) x y) d →
      inB (backTracker w h s rng) (x + DX d) (y + DY d) :=
    fun d hd hb => (hsym x y hin d hd hb).1
  have hE : DX E = 1 ∧ DY E = 0 := by decide
  have hW : DX W = -1 ∧ DY W = 0 := by decide
  have hN : DX N = 0 ∧ DY N = -1 := by decide
  have hS : DX S = 0 ∧ DY S = 1 := by decide
  refine ⟨⟨?_, ?_, ?_, ?_⟩, ?_⟩
  · intro hx hb
    have hnb := hgen E (by decide) hb
    rw [inB_backTracker, hE.1, hE.2] at hnb
    omega
  · intro hx hb
    have hnb := hgen W (by decide) hb
    rw [inB_backTracker, hW.1, hW.2] at hnb
    omega
  · intro hy hb
    have hnb := hgen N (by decide) hb
    rw [inB_backTracker, hN.1, hN.2] at hnb
    omega
  · intro hy hb
    have hnb := hgen S (by decide) hb
    rw [inB_backTracker, hS.1, hS.2] at hnb
    omega
  · intro hb
    have hnb := hgen E (by decide) hb
    rw [hE.1, hE.2, add_zero] at hnb
    exact index_toNat_lt hI.1 hnb

/-- Witness for C10 at width 2, height 2, seed 0, identity stream, cell
(1, 0). -/
theorem C10_border_bits_witness :
    ((1 = (2 : Int) - 1 → ¬hasDir (cellAt (backTracker 2 2 0 (fun k => k)) 1 0) E) ∧
     ((1 : Int) = 0 → ¬hasDir (cellAt (backTracker 2 2 0 (fun k => k)) 1 0) W) ∧
     ((0 : Int) = 0 → ¬hasDir (cellAt (backTracker 2 2 0 (fun k => k)) 1 0) N) ∧
     ((0 : Int) = (2 : Int) - 1 → ¬hasDir (cellAt (backTracker 2 2 0 (fun k => k)) 1 0) S)) ∧
    (hasDir (cellAt (backTracker 2 2 0 (fun k => k)) 1 0) E →
      ((backTracker 2 2 0 (fun k => k)).index (1 + 1) 0).toNat <
        (backTracker 2 2 0 (fun k => k)).grid.length) :=
  C10_border_bits 2 2 0 (fun k => k) (by omega) (by omega) 1 0
    (by rw [inB_backTracker]; omega)
